import Mathlib

/-!
Shortest-path search of `raygame/main.cpp`

A shallow embedding of `dijkstrasSearch` (main.cpp, lines 33-119) and of the
`Node` / `Edge` records it works on.

* A `Node*` is an address: a natural number, `Option Nat` where the pointer may
  be `nullptr`.  The memory the pointers point into is a `Heap`, a total map
  from addresses to `Node` records.
* `cost` and `gScore` are `float` in the source.  Here they range over a type `α`
  with a zero, an addition and a decidable comparison of which nothing is
  assumed: the rounding addition of `float` is one such `α` (`F32` below models
  it on integer values), exact numbers such as `ℤ` or `ℚ` are another.  A
  statement that needs the laws of exact arithmetic says so, over an ordered
  group `β`.
* `position` is only read by the drawing code and is left out of `Node`.
* The two `while` loops take a `fuel` argument and answer `none` when it runs
  out, so that a run that never returns is distinguishable from one that does.
-/

namespace Raygame

/-- The record `struct Edge` of main.cpp: the address of the target node and the cost. -/
structure Edge (α : Type) where
  target : Nat
  cost : α
  deriving DecidableEq

/-- The record `struct Node` of main.cpp without its display-only `position`. -/
structure Node (α : Type) where
  gScore : α
  previous : Option Nat
  connections : List (Edge α)

/-- The memory holding the nodes: what stands at each address. -/
abbrev Heap (α : Type) := Nat → Node α

set_option linter.unusedSectionVars false

variable {α : Type} [Zero α] [Add α] [LT α] [DecidableRel (fun a b : α => a < b)]

/-- The assignment `v->gScore = x`. -/
def setGScore (h : Heap α) (v : Nat) (x : α) : Heap α :=
  Function.update h v { h v with gScore := x }

/-- The assignment `v->previous = p`. -/
def setPrevious (h : Heap α) (v : Nat) (p : Option Nat) : Heap α :=
  Function.update h v { h v with previous := p }

/-- Lines 84-92: scan `openList` from the front for the first entry whose `gScore` is
strictly greater than that of `t` and put `t` right before it (at the end when there
is none). -/
def insertOpen (h : Heap α) (t : Nat) : List Nat → List Nat
  | [] => [t]
  | i :: rest =>
    if (h t).gScore < (h i).gScore then t :: i :: rest
    else i :: insertOpen h t rest

/-- Lines 72-103: the body of the `for` loop over the edges of `currentNode`, acting on
the heap and the open list. -/
def relaxEdge (currentNode : Nat) (closedList : List Nat)
    (st : Heap α × List Nat) (e : Edge α) : Heap α × List Nat :=
  if e.target ∈ closedList then st
  else if e.target ∉ st.2 then
    let h1 := setGScore st.1 e.target ((st.1 currentNode).gScore + e.cost)
    let h2 := setPrevious h1 e.target (some currentNode)
    (h2, insertOpen h2 e.target st.2)
  else if (st.1 currentNode).gScore + e.cost < (st.1 e.target).gScore then
    let h1 := setGScore st.1 e.target ((st.1 currentNode).gScore + e.cost)
    (setPrevious h1 e.target (some currentNode), st.2)
  else st

/-- Lines 71-104: the `for` loop over `currentNode->connections`; the vector iterated is
the one the node holds when the loop starts. -/
def relaxEdges (currentNode : Nat) (closedList : List Nat)
    (h : Heap α) (openList : List Nat) : Heap α × List Nat :=
  (h currentNode).connections.foldl (relaxEdge currentNode closedList) (h, openList)

/-- Lines 56-105: the main `while` loop.  The result is the heap and the two lists when
the loop is left, `none` when `fuel` iterations were not enough. -/
def mainLoop (endNode : Nat) :
    Nat → Heap α → List Nat → List Nat → Option (Heap α × List Nat × List Nat)
  | _, h, [], closedList => some (h, [], closedList)
  | 0, _, _ :: _, _ => none
  | fuel + 1, h, currentNode :: rest, closedList =>
    if currentNode = endNode then some (h, rest, closedList ++ [currentNode])
    else
      let st := relaxEdges currentNode (closedList ++ [currentNode]) h rest
      mainLoop endNode fuel st.1 st.2 (closedList ++ [currentNode])

/-- Lines 108-116: the walk back along `previous`, each node put at the front of `path`;
`none` when `fuel` steps did not reach a null `previous`. -/
def buildPath (h : Heap α) : Nat → Option Nat → List Nat → Option (List Nat)
  | _, none, path => some path
  | 0, some _, _ => none
  | fuel + 1, some currentNode, path =>
    buildPath h fuel (h currentNode).previous (currentNode :: path)

/-- The function `dijkstrasSearch` of main.cpp, lines 33-119: the returned vector and the
heap it leaves. -/
def dijkstrasSearch (fuel : Nat) (h : Heap α) (startNode endNode : Option Nat) :
    Option (List Nat × Heap α) :=
  match startNode, endNode with
  | none, _ => some ([], h)
  | some _, none => some ([], h)
  | some s, some g =>
    if s = g then some ([s], h)
    else
      let h1 := setPrevious (setGScore h s 0) s none
      match mainLoop g fuel h1 [s] [] with
      | none => none
      | some (h2, _, _) =>
        match buildPath h2 fuel (some g) [] with
        | none => none
        | some path => some (path, h2)

/-- The path returned by a run, when it returns. -/
def resultPath (r : Option (List Nat × Heap α)) : Option (List Nat) := r.map Prod.fst

/-- The `gScore` of each listed node in the heap a run leaves. -/
def resultScores (r : Option (List Nat × Heap α)) (vs : List Nat) : Option (List α) :=
  r.map fun x => vs.map fun v => (x.2 v).gScore

/-- The `previous` of each listed node in the heap a run leaves. -/
def resultPrevious (r : Option (List Nat × Heap α)) (vs : List Nat) :
    Option (List (Option Nat)) :=
  r.map fun x => vs.map fun v => (x.2 v).previous

/-- A node as `new Node()` leaves it, with the given edges pushed onto `connections`. -/
def freshNode (es : List (Edge α)) : Node α := ⟨0, none, es⟩

/-- The graph built in `main` (lines 172-193): a=0, b=1, c=2, d=3, e=4, f=5. -/
def mainGraph : Heap ℤ := fun v =>
  match v with
  | 0 => freshNode [⟨1, 2⟩, ⟨5, 5⟩]
  | 1 => freshNode [⟨2, 3⟩]
  | 2 => freshNode [⟨0, 3⟩, ⟨3, 1⟩]
  | 3 => freshNode [⟨4, 4⟩, ⟨5, 4⟩]
  | 5 => freshNode [⟨4, 6⟩]
  | _ => freshNode []

/-- A five-node graph on which an open-list entry is improved after it was queued:
s=0, x=1, y=2, a=3, with s->x 10, s->y 6, s->a 1, a->x 1, x->y 1. -/
def staleOrderGraph : Heap ℤ := fun v =>
  match v with
  | 0 => freshNode [⟨1, 10⟩, ⟨2, 6⟩, ⟨3, 1⟩]
  | 1 => freshNode [⟨2, 1⟩]
  | 3 => freshNode [⟨1, 1⟩]
  | _ => freshNode []

/-- Lines 79 and 81 (or 99 and 101) taken together: the record left at `t` holds the new
`gScore`, `currentNode` as `previous`, and the connections it had. -/
def writeNode (h : Heap α) (t c : Nat) (x : α) : Heap α :=
  Function.update h t ⟨x, some c, (h t).connections⟩

/-- A walk in the graph: the edges followed, one after the other, from `a` to `b`. -/
def IsWalk (h : Heap α) : Nat → List (Edge α) → Nat → Prop
  | a, [], b => a = b
  | a, e :: es, b => e ∈ (h a).connections ∧ IsWalk h e.target es b

/-- The total cost of the edges of a walk. -/
def walkCost (es : List (Edge α)) : α := (es.map Edge.cost).sum

/-- Node `v` can be reached from `s` along edges of the graph. -/
def Reachable (h : Heap α) (s v : Nat) : Prop := ∃ es, IsWalk h s es v

/-- There is an edge from `a` to `b`: `b` is the target of an entry of `a`'s connections. -/
def HasEdge (h : Heap α) (a b : Nat) : Prop := ∃ e ∈ (h a).connections, e.target = b

/-- All nodes of the graph live at the addresses below `n`: edges of such a node lead to
such a node. -/
def FiniteGraph (h : Heap α) (n : Nat) : Prop :=
  ∀ v, v < n → ∀ e ∈ (h v).connections, e.target < n

/-- The sequence that following `previous` from a pointer gives, in the order in which
lines 108-116 assemble it (the node walked from comes last). -/
inductive BackWalk (h : Heap α) : Option Nat → List Nat → Prop
  | nil : BackWalk h none []
  | snoc {v : Nat} {p : List Nat} : BackWalk h (h v).previous p → BackWalk h (some v) (p ++ [v])

/-- What holds of the heap and the two lists throughout the main loop of a search from
`s` that entered the loop with heap `h0`. -/
structure Core (h0 : Heap α) (s : Nat) (h : Heap α) (op cl : List Nat) : Prop where
  conn : ∀ v, (h v).connections = (h0 v).connections
  nodup : (cl ++ op).Nodup
  reach : ∀ v ∈ cl ++ op, Reachable h0 s v
  start_g : (h s).gScore = 0
  start_prev : (h s).previous = none
  pred : ∀ v ∈ cl ++ op, v ≠ s → ∃ c ∈ cl, (h v).previous = some c ∧
    ∃ e ∈ (h0 c).connections, e.target = v ∧ (h v).gScore = (h c).gScore + e.cost
  path : ∀ v ∈ cl, ∃ p, BackWalk h (some v) p ∧ p.Sublist cl ∧ p.head? = some s
  frame : ∀ v, v ∉ cl ++ op → h v = h0 v

/-- What holds in addition each time the loop condition of line 56 is evaluated. -/
structure LoopInv (h0 : Heap α) (s g : Nat) (h : Heap α) (op cl : List Nat) : Prop where
  core : Core h0 s h op cl
  start_mem : s ∈ cl ∨ (cl = [] ∧ op = [s])
  expanded : ∀ c ∈ cl, ∀ e ∈ (h0 c).connections, e.target ∈ cl ++ op
  goal_open : g ∉ cl

/-- What holds of the heap and the two lists when the main loop has been left. -/
structure Final (h0 : Heap α) (s g : Nat) (h : Heap α) (op cl : List Nat) : Prop where
  core : Core h0 s h op cl
  start_mem : s ∈ cl
  exit : (op = [] ∧ g ∉ cl ∧ ∀ c ∈ cl, ∀ e ∈ (h0 c).connections, e.target ∈ cl) ∨
    (∃ cl0, cl = cl0 ++ [g] ∧ g ∉ cl0)

/-- Two heaps hold the same graph and the same records at the listed nodes. -/
def Agree (hA hB : Heap α) (touched : List Nat) : Prop :=
  (∀ v, (hA v).connections = (hB v).connections) ∧ ∀ v ∈ touched, hA v = hB v

/-- A single node whose `gScore` an earlier search left at 7. -/
def staleNode : Heap ℤ := fun _ => ⟨7, none, []⟩

/-- The heap with which the main loop is entered: lines 46-47 done on the start node. -/
def startHeap (h : Heap α) (s : Nat) : Heap α := setPrevious (setGScore h s 0) s none

/-- There is an edge from `a` to `b` and the `gScore` of `b` is the sum that lines 79 and 99
compute: the `gScore` of `a` plus the cost of the edge, in the addition of `α`. -/
def SumEdge (h : Heap α) (a b : Nat) : Prop :=
  ∃ e ∈ (h a).connections, e.target = b ∧ (h b).gScore = (h a).gScore + e.cost

/-- The edges `es` lead from `a` through the nodes `l`, one edge per node, and the `gScore`
of each node is the `gScore` of the node before it plus the cost of the edge. -/
def AddAlong (h : Heap α) : Nat → List (Edge α) → List Nat → Prop
  | _, [], [] => True
  | a, e :: es, b :: rest =>
    e ∈ (h a).connections ∧ e.target = b ∧ (h b).gScore = (h a).gScore + e.cost ∧
      AddAlong h b es rest
  | _, _, _ => False

/-- The costs of the edges added to `x` one after the other, in the order of the list. -/
def accumulate (x : α) (es : List (Edge α)) : α := es.foldl (fun acc e => acc + e.cost) x

/-- The number of halvings that bring `m` below `2 ^ 24`, at most `fuel` of them. -/
def shiftCount : Nat → Nat → Nat
  | 0, _ => 0
  | fuel + 1, m => if m < 16777216 then 0 else shiftCount fuel (m / 2) + 1

/-- Modelled from IEEE 754, binary32, round to nearest with ties to even: the natural number
with a significand of at most 24 bits that is nearest to `m` (for `m` below `2 ^ 128`, where
`float` does not overflow). -/
def roundNat (m : Nat) : Nat :=
  let e := shiftCount 128 m
  let q := m / 2 ^ e
  let r := m % 2 ^ e
  if 2 * r < 2 ^ e then q * 2 ^ e
  else if 2 ^ e < 2 * r then (q + 1) * 2 ^ e
  else if q % 2 = 0 then q * 2 ^ e
  else (q + 1) * 2 ^ e

/-- The rounding of `roundNat` on integers of either sign. -/
def roundInt (x : ℤ) : ℤ :=
  if 0 ≤ x then (roundNat x.natAbs : ℤ) else -(roundNat x.natAbs : ℤ)

/-- A `float` holding an integer value. -/
structure F32 where
  val : ℤ
  deriving DecidableEq

instance : Zero F32 := ⟨⟨0⟩⟩

/-- The `float` addition: the exact sum, rounded. -/
instance : Add F32 := ⟨fun a b => ⟨roundInt (a.val + b.val)⟩⟩

instance : LT F32 := ⟨fun a b => a.val < b.val⟩

instance : DecidableRel (fun a b : F32 => a < b) := fun a b => Int.decLt a.val b.val

/-- Three fresh nodes in a row with `float` costs: 0 -> 1 costs 16777216 and 1 -> 2
costs 3. -/
def floatGraph : Heap F32 := fun v =>
  match v with
  | 0 => freshNode [⟨1, ⟨16777216⟩⟩]
  | 1 => freshNode [⟨2, ⟨3⟩⟩]
  | _ => freshNode []

/-- In arithmetic without rounding: there is an edge from `a` to `b` whose cost is the
difference of the two `gScore`s. -/
def CostEdge {β : Type} [LinearOrderedAddCommGroup β]
    (h : Heap β) (a b : Nat) : Prop :=
  ∃ e ∈ (h a).connections, e.target = b ∧ e.cost = (h b).gScore - (h a).gScore

/-- In arithmetic without rounding: the edges `es` lead from `a` through the nodes `l`, one
edge per node, and each costs the difference of the `gScore`s of its two ends. -/
def AlongPath {β : Type} [LinearOrderedAddCommGroup β]
    (h : Heap β) : Nat → List (Edge β) → List Nat → Prop
  | _, [], [] => True
  | a, e :: es, b :: rest =>
    e ∈ (h a).connections ∧ e.target = b ∧ e.cost = (h b).gScore - (h a).gScore ∧
      AlongPath h b es rest
  | _, _, _ => False

/-- The frame of a search from `s` that turned heap `h` into `h2`: every node has the
connections it had, and a node that no walk from `s` reaches has the record it had. -/
def FrameOf (h : Heap α) (s : Option Nat) (h2 : Heap α) : Prop :=
  (∀ v, (h2 v).connections = (h v).connections) ∧
    ∀ v, (∀ a, s = some a → ¬ Reachable h a v) → h2 v = h v

/-- The graph of `staleOrderGraph` with records an earlier search might have left: every
`gScore` is 7 and every `previous` points at node 0. -/
def staleOrderGraphUsed : Heap ℤ := fun v => ⟨7, some 0, (staleOrderGraph v).connections⟩

/-- The main loop of lines 56-105 once more, counting instead of returning the state: the
number of iterations begun and the number of edges the `for` loop of line 71 went through. -/
def mainLoopCount (endNode : Nat) :
    Nat → Heap α → List Nat → List Nat → Option (Nat × Nat)
  | _, _, [], _ => some (0, 0)
  | 0, _, _ :: _, _ => none
  | fuel + 1, h, currentNode :: rest, closedList =>
    if currentNode = endNode then some (1, 0)
    else
      let st := relaxEdges currentNode (closedList ++ [currentNode]) h rest
      (mainLoopCount endNode fuel st.1 st.2 (closedList ++ [currentNode])).map
        fun c => (c.1 + 1, c.2 + (h currentNode).connections.length)

/-- The heap and open list after each edge of a `for` loop of line 71 that starts in state
`st` and goes through the edges `es`. -/
def relaxPoints (currentNode : Nat) (closedList : List Nat) :
    Heap α × List Nat → List (Edge α) → List (Heap α × List Nat)
  | _, [] => []
  | st, e :: es =>
    relaxEdge currentNode closedList st e ::
      relaxPoints currentNode closedList (relaxEdge currentNode closedList st e) es

/-- The states (heap, open list, closed list) the main loop goes through, in order: at each
evaluation of the loop condition (line 56), after the `erase` of line 60, after the
`push_back` of line 62 and after each edge of the `for` loop, for at most `fuel`
iterations. -/
def loopPoints (endNode : Nat) :
    Nat → Heap α → List Nat → List Nat → List (Heap α × List Nat × List Nat)
  | _, h, [], closedList => [(h, [], closedList)]
  | 0, h, currentNode :: rest, closedList => [(h, currentNode :: rest, closedList)]
  | fuel + 1, h, currentNode :: rest, closedList =>
    (h, currentNode :: rest, closedList) :: (h, rest, closedList) ::
      (h, rest, closedList ++ [currentNode]) ::
      (if currentNode = endNode then []
      else
        (relaxPoints currentNode (closedList ++ [currentNode]) (h, rest)
            (h currentNode).connections).map
          (fun st => (st.1, st.2, closedList ++ [currentNode])) ++
        loopPoints endNode fuel
          (relaxEdges currentNode (closedList ++ [currentNode]) h rest).1
          (relaxEdges currentNode (closedList ++ [currentNode]) h rest).2
          (closedList ++ [currentNode]))

/-- The states at the evaluations of the loop condition of line 56 only: the starts of the
iterations, and the state in which the loop is left with an empty open list. -/
def loopHeads (endNode : Nat) :
    Nat → Heap α → List Nat → List Nat → List (Heap α × List Nat × List Nat)
  | _, h, [], closedList => [(h, [], closedList)]
  | 0, h, currentNode :: rest, closedList => [(h, currentNode :: rest, closedList)]
  | fuel + 1, h, currentNode :: rest, closedList =>
    (h, currentNode :: rest, closedList) ::
      (if currentNode = endNode then []
      else
        loopHeads endNode fuel
          (relaxEdges currentNode (closedList ++ [currentNode]) h rest).1
          (relaxEdges currentNode (closedList ++ [currentNode]) h rest).2
          (closedList ++ [currentNode]))

/-- The `gScore`s of the nodes of the open list of a state, in the order of the list. -/
def openScores (st : Heap α × List Nat × List Nat) : List α :=
  st.2.1.map fun v => (st.1 v).gScore

/-- State `τ` holds, at every node of the closed list of state `σ`, the record that `σ`
holds there: the same `gScore` and the same `previous`. -/
def KeepsClosed (σ τ : Heap α × List Nat × List Nat) : Prop :=
  ∀ v ∈ σ.2.2, τ.1 v = σ.1 v

/-- A start node with two edges of equal cost, to node 1 and then to node 2. -/
def tieGraph : Heap ℤ := fun v =>
  match v with
  | 0 => freshNode [⟨1, 3⟩, ⟨2, 3⟩]
  | _ => freshNode []

/-- Node `a` is the `previous` of node `b`. -/
def PrevRel (h : Heap α) (a b : Nat) : Prop := (h b).previous = some a

/-- The `previous` links contain no cycle: following them from a node, one step or more,
never leads back to that node. -/
def Acyclic (h : Heap α) : Prop := ∀ v, ¬ Relation.TransGen (PrevRel h) v v

/-- The `previous` pointers of the nodes of the graph (the addresses below `n`) point at
nodes of the graph. -/
def PreviousIn (h : Heap α) (n : Nat) : Prop :=
  ∀ v, v < n → ∀ c, (h v).previous = some c → c < n

/-! ## The heap writes -/

theorem setPrevious_setGScore (h : Heap α) (t : Nat) (x : α) (p : Option Nat) :
    setPrevious (setGScore h t x) t p = Function.update h t ⟨x, p, (h t).connections⟩ := by
  unfold setPrevious setGScore
  simp

theorem relaxEdge_eq (cur : Nat) (cl : List Nat) (h : Heap α) (op : List Nat) (e : Edge α) :
    relaxEdge cur cl (h, op) e =
      if e.target ∈ cl then (h, op)
      else if e.target ∉ op then
        (writeNode h e.target cur ((h cur).gScore + e.cost),
          insertOpen (writeNode h e.target cur ((h cur).gScore + e.cost)) e.target op)
      else if (h cur).gScore + e.cost < (h e.target).gScore then
        (writeNode h e.target cur ((h cur).gScore + e.cost), op)
      else (h, op) := by
  unfold relaxEdge writeNode
  simp only [setPrevious_setGScore]

theorem writeNode_other (h : Heap α) {t v : Nat} (c : Nat) (x : α) (hv : v ≠ t) :
    writeNode h t c x v = h v := by
  simp [writeNode, Function.update_noteq hv]

theorem writeNode_self (h : Heap α) (t c : Nat) (x : α) :
    writeNode h t c x t = ⟨x, some c, (h t).connections⟩ := by
  simp [writeNode]

theorem writeNode_connections (h : Heap α) (t c : Nat) (x : α) (v : Nat) :
    (writeNode h t c x v).connections = (h v).connections := by
  by_cases hv : v = t
  · subst hv; rw [writeNode_self]
  · rw [writeNode_other h c x hv]

theorem insertOpen_perm (h : Heap α) (t : Nat) (l : List Nat) :
    (insertOpen h t l).Perm (t :: l) := by
  induction l with
  | nil => exact List.Perm.refl _
  | cons i rest ih =>
    unfold insertOpen
    split
    · exact List.Perm.refl _
    · exact (List.Perm.cons i ih).trans (List.Perm.swap t i rest)

theorem mem_insertOpen (h : Heap α) (t : Nat) (l : List Nat) (v : Nat) :
    v ∈ insertOpen h t l ↔ v = t ∨ v ∈ l := by
  rw [(insertOpen_perm h t l).mem_iff, List.mem_cons]

/-! ## Walks -/

theorem IsWalk.snoc {h : Heap α} {es : List (Edge α)} {a b : Nat} {e : Edge α}
    (hw : IsWalk h a es b) (he : e ∈ (h b).connections) : IsWalk h a (es ++ [e]) e.target := by
  induction es generalizing a with
  | nil =>
    have hab : a = b := hw
    subst hab
    exact ⟨he, rfl⟩
  | cons e1 es ih => exact ⟨hw.1, ih hw.2⟩

theorem IsWalk.walk_congr {h h1 : Heap α} (hc : ∀ v, (h1 v).connections = (h v).connections)
    {es : List (Edge α)} {a b : Nat} (hw : IsWalk h a es b) : IsWalk h1 a es b := by
  induction es generalizing a with
  | nil => exact hw
  | cons e1 es ih => exact ⟨by rw [hc]; exact hw.1, ih hw.2⟩

theorem Reachable.refl (h : Heap α) (s : Nat) : Reachable h s s := ⟨[], rfl⟩

theorem Reachable.reach_step {h : Heap α} {s c : Nat} {e : Edge α} (hr : Reachable h s c)
    (he : e ∈ (h c).connections) : Reachable h s e.target := by
  obtain ⟨es, hes⟩ := hr
  exact ⟨es ++ [e], hes.snoc he⟩

theorem Reachable.reach_congr {h h1 : Heap α} (hc : ∀ v, (h1 v).connections = (h v).connections)
    {s v : Nat} (hr : Reachable h s v) : Reachable h1 s v := by
  obtain ⟨es, hes⟩ := hr
  exact ⟨es, hes.walk_congr hc⟩

theorem Reachable.lt {h : Heap α} {n : Nat} (hf : FiniteGraph h n) {s v : Nat} (hs : s < n)
    (hr : Reachable h s v) : v < n := by
  obtain ⟨es, hes⟩ := hr
  induction es generalizing s with
  | nil =>
    have hsv : s = v := hes
    exact hsv ▸ hs
  | cons e1 es ih => exact ih (hf s hs e1 hes.1) hes.2

theorem BackWalk.back_congr {h h1 : Heap α} {o : Option Nat} {p : List Nat} (hw : BackWalk h o p)
    (hp : ∀ x ∈ p, (h1 x).previous = (h x).previous) : BackWalk h1 o p := by
  induction hw with
  | nil => exact BackWalk.nil
  | snoc _ ih =>
    rename_i v p _
    have hv : (h1 v).previous = (h v).previous := hp v (by simp)
    have := ih (fun x hx => hp x (by simp [hx]))
    rw [← hv] at this
    exact BackWalk.snoc this

theorem BackWalk.ne_nil {h : Heap α} {v : Nat} {p : List Nat} (hw : BackWalk h (some v) p) :
    p ≠ [] := by
  cases hw
  simp

theorem BackWalk.getLast {h : Heap α} {v : Nat} {p : List Nat} (hw : BackWalk h (some v) p) :
    p.getLast? = some v := by
  cases hw
  simp

theorem buildPath_of_backWalk {h : Heap α} {o : Option Nat} {p : List Nat}
    (hw : BackWalk h o p) (fuel : Nat) (hfuel : p.length ≤ fuel) (acc : List Nat) :
    buildPath h fuel o acc = some (p ++ acc) := by
  induction hw generalizing fuel acc with
  | nil => cases fuel <;> simp [buildPath]
  | snoc _ ih =>
    rename_i v p _
    cases fuel with
    | zero => simp at hfuel
    | succ fuel =>
      simp only [buildPath]
      rw [ih fuel (by simpa using hfuel) (v :: acc)]
      simp

/-! ## The invariant of the main loop -/

theorem Core.core_init (h0 : Heap α) (s : Nat) (hg : (h0 s).gScore = 0)
    (hp : (h0 s).previous = none) : Core h0 s h0 [s] [] where
  conn := fun _ => rfl
  nodup := by simp
  reach := by
    intro v hv
    have : v = s := by simpa using hv
    subst this
    exact Reachable.refl _ _
  start_g := hg
  start_prev := hp
  pred := by
    intro v hv hne
    have : v = s := by simpa using hv
    exact absurd this hne
  path := by simp
  frame := fun _ _ => rfl

theorem Core.pop {h0 h : Heap α} {s cur : Nat} {rest cl : List Nat}
    (H : Core h0 s h (cur :: rest) cl) : Core h0 s h rest (cl ++ [cur]) where
  conn := H.conn
  nodup := by
    have := H.nodup
    refine this.perm ?_
    simp only [List.append_assoc, List.singleton_append]
    exact List.Perm.refl _
  reach := by
    intro v hv
    apply H.reach
    simpa using hv
  start_g := H.start_g
  start_prev := H.start_prev
  pred := by
    intro v hv hne
    obtain ⟨c, hc, hrest⟩ := H.pred v (by simpa using hv) hne
    exact ⟨c, by simp [hc], hrest⟩
  path := by
    intro v hv
    rcases List.mem_append.1 hv with hv | hv
    · obtain ⟨p, hp, hsub, hhead⟩ := H.path v hv
      exact ⟨p, hp, hsub.trans (List.sublist_append_left _ _), hhead⟩
    · have hvc : v = cur := by simpa using hv
      subst hvc
      by_cases hvs : v = s
      · subst hvs
        refine ⟨[] ++ [v], BackWalk.snoc ?_, ?_, by simp⟩
        · rw [H.start_prev]; exact BackWalk.nil
        · simp
      · obtain ⟨c, hc, hprev, _⟩ := H.pred v (by simp) hvs
        obtain ⟨p, hp, hsub, hhead⟩ := H.path c hc
        refine ⟨p ++ [v], BackWalk.snoc (by rw [hprev]; exact hp), ?_, ?_⟩
        · exact List.Sublist.append hsub (List.Sublist.refl _)
        · have hne := hp.ne_nil
          cases p with
          | nil => exact absurd rfl hne
          | cons a p => simpa using hhead
  frame := by
    intro v hv
    apply H.frame
    simpa using hv

theorem Core.write {h0 h : Heap α} {s : Nat} {op cl : List Nat} (H : Core h0 s h op cl)
    {cur : Nat} {e : Edge α} {op1 : List Nat}
    (hs : s ∈ cl) (hcur : cur ∈ cl) (ht : e.target ∉ cl) (he : e ∈ (h0 cur).connections)
    (hmem : ∀ v, v ∈ op1 ↔ v = e.target ∨ v ∈ op) (hnd : (cl ++ op1).Nodup) :
    Core h0 s (writeNode h e.target cur ((h cur).gScore + e.cost)) op1 cl := by
  have hcl : ∀ v ∈ cl, writeNode h e.target cur ((h cur).gScore + e.cost) v = h v := by
    intro v hv
    exact writeNode_other h _ _ (fun hvt => ht (hvt ▸ hv))
  refine ⟨?_, hnd, ?_, ?_, ?_, ?_, ?_, ?_⟩
  · intro v
    rw [writeNode_connections, H.conn]
  · intro v hv
    rcases List.mem_append.1 hv with hv | hv
    · exact H.reach v (List.mem_append_left _ hv)
    · rcases (hmem v).1 hv with hv | hv
      · subst hv
        exact (H.reach cur (List.mem_append_left _ hcur)).reach_step he
      · exact H.reach v (List.mem_append_right _ hv)
  · rw [hcl s hs]; exact H.start_g
  · rw [hcl s hs]; exact H.start_prev
  · intro v hv hne
    by_cases hvt : v = e.target
    · subst hvt
      refine ⟨cur, hcur, ?_, e, he, rfl, ?_⟩
      · rw [writeNode_self]
      · rw [writeNode_self, hcl cur hcur]
    · have hv1 : v ∈ cl ++ op := by
        rcases List.mem_append.1 hv with hv | hv
        · exact List.mem_append_left _ hv
        · rcases (hmem v).1 hv with hv | hv
          · exact absurd hv hvt
          · exact List.mem_append_right _ hv
      obtain ⟨c, hc, hprev, e1, he1, het1, hg⟩ := H.pred v hv1 hne
      refine ⟨c, hc, ?_, e1, he1, het1, ?_⟩
      · rw [writeNode_other h _ _ hvt]; exact hprev
      · rw [writeNode_other h _ _ hvt, hcl c hc]; exact hg
  · intro v hv
    obtain ⟨p, hp, hsub, hhead⟩ := H.path v hv
    refine ⟨p, hp.back_congr ?_, hsub, hhead⟩
    intro x hx
    rw [hcl x (hsub.subset hx)]
  · intro v hv
    have hvt : v ≠ e.target := by
      intro hvt
      exact hv (List.mem_append_right _ ((hmem v).2 (Or.inl hvt)))
    rw [writeNode_other h _ _ hvt]
    apply H.frame
    intro hv1
    rcases List.mem_append.1 hv1 with hv1 | hv1
    · exact hv (List.mem_append_left _ hv1)
    · exact hv (List.mem_append_right _ ((hmem v).2 (Or.inr hv1)))

theorem Core.relax_step {h0 h : Heap α} {s : Nat} {op cl : List Nat} (H : Core h0 s h op cl)
    {cur : Nat} {e : Edge α} (hs : s ∈ cl) (hcur : cur ∈ cl)
    (he : e ∈ (h0 cur).connections) :
    Core h0 s (relaxEdge cur cl (h, op) e).1 (relaxEdge cur cl (h, op) e).2 cl ∧
      (∀ v ∈ op, v ∈ (relaxEdge cur cl (h, op) e).2) ∧
      e.target ∈ cl ++ (relaxEdge cur cl (h, op) e).2 := by
  rw [relaxEdge_eq]
  by_cases h1 : e.target ∈ cl
  · simp only [h1, if_true]
    exact ⟨H, fun _ hv => hv, List.mem_append_left _ h1⟩
  · simp only [h1, if_false]
    by_cases h2 : e.target ∈ op
    · simp only [h2, not_true_eq_false, if_false]
      split
      · refine ⟨H.write hs hcur h1 he ?_ H.nodup, fun _ hv => hv, List.mem_append_right _ h2⟩
        intro v
        constructor
        · exact Or.inr
        · rintro (hv | hv)
          · exact hv ▸ h2
          · exact hv
      · exact ⟨H, fun _ hv => hv, List.mem_append_right _ h2⟩
    · simp only [h2, not_false_eq_true, if_true]
      refine ⟨H.write hs hcur h1 he (mem_insertOpen _ _ _) ?_, ?_, ?_⟩
      · have hperm : (cl ++ insertOpen (writeNode h e.target cur ((h cur).gScore + e.cost))
            e.target op).Perm (e.target :: (cl ++ op)) :=
          ((List.Perm.refl cl).append (insertOpen_perm _ _ _)).trans
            (List.perm_middle)
        refine hperm.nodup_iff.2 (List.nodup_cons.2 ⟨?_, H.nodup⟩)
        simp [h1, h2]
      · intro v hv
        exact (mem_insertOpen _ _ _ _).2 (Or.inr hv)
      · exact List.mem_append_right _ ((mem_insertOpen _ _ _ _).2 (Or.inl rfl))

theorem Core.relax_fold {h0 : Heap α} {s cur : Nat} {cl : List Nat} (hs : s ∈ cl)
    (hcur : cur ∈ cl) (es : List (Edge α)) (hes : ∀ e ∈ es, e ∈ (h0 cur).connections)
    (st : Heap α × List Nat) (H : Core h0 s st.1 st.2 cl) :
    Core h0 s (es.foldl (relaxEdge cur cl) st).1 (es.foldl (relaxEdge cur cl) st).2 cl ∧
      (∀ v ∈ st.2, v ∈ (es.foldl (relaxEdge cur cl) st).2) ∧
      (∀ e ∈ es, e.target ∈ cl ++ (es.foldl (relaxEdge cur cl) st).2) := by
  induction es generalizing st with
  | nil => exact ⟨H, fun _ hv => hv, by simp⟩
  | cons e es ih =>
    obtain ⟨h, op⟩ := st
    have h1 := H.relax_step hs hcur (hes e (by simp))
    have h2 := ih (fun e1 he1 => hes e1 (by simp [he1])) _ h1.1
    simp only [List.foldl_cons]
    refine ⟨h2.1, fun v hv => h2.2.1 v (h1.2.1 v hv), ?_⟩
    intro e1 he1
    rcases List.mem_cons.1 he1 with he1 | he1
    · subst he1
      rcases List.mem_append.1 h1.2.2 with hm | hm
      · exact List.mem_append_left _ hm
      · exact List.mem_append_right _ (h2.2.1 _ hm)
    · exact h2.2.2 e1 he1


theorem mainLoop_nil (g fuel : Nat) (h : Heap α) (cl : List Nat) :
    mainLoop g fuel h [] cl = some (h, [], cl) := by
  cases fuel <;> rfl

theorem mainLoop_succ (g fuel : Nat) (h : Heap α) (cur : Nat) (rest cl : List Nat) :
    mainLoop g (fuel + 1) h (cur :: rest) cl =
      if cur = g then some (h, rest, cl ++ [cur])
      else mainLoop g fuel (relaxEdges cur (cl ++ [cur]) h rest).1
        (relaxEdges cur (cl ++ [cur]) h rest).2 (cl ++ [cur]) := rfl

theorem LoopInv.loop_init (h0 : Heap α) (s g : Nat) (hg : (h0 s).gScore = 0)
    (hp : (h0 s).previous = none) : LoopInv h0 s g h0 [s] [] where
  core := Core.core_init h0 s hg hp
  start_mem := Or.inr ⟨rfl, rfl⟩
  expanded := by simp
  goal_open := by simp

theorem LoopInv.start_popped {h0 h : Heap α} {s g cur : Nat} {rest cl : List Nat}
    (H : LoopInv h0 s g h (cur :: rest) cl) : s ∈ cl ++ [cur] := by
  rcases H.start_mem with hs | ⟨_, hop⟩
  · exact List.mem_append_left _ hs
  · have : cur = s := by
      have := congrArg List.head? hop
      simpa using this
    simp [this]

theorem LoopInv.loop_step {h0 h : Heap α} {s g cur : Nat} {rest cl : List Nat}
    (H : LoopInv h0 s g h (cur :: rest) cl) (hne : cur ≠ g) :
    LoopInv h0 s g (relaxEdges cur (cl ++ [cur]) h rest).1
      (relaxEdges cur (cl ++ [cur]) h rest).2 (cl ++ [cur]) := by
  have hs := H.start_popped
  have hcur : cur ∈ cl ++ [cur] := by simp
  have hfold := Core.relax_fold hs hcur (h cur).connections
    (fun e he => by rw [← H.core.conn]; exact he) (h, rest) H.core.pop
  refine ⟨hfold.1, Or.inl hs, ?_, ?_⟩
  · intro c hc e he
    rcases List.mem_append.1 hc with hc | hc
    · have := H.expanded c hc e he
      rcases List.mem_append.1 this with hm | hm
      · exact List.mem_append_left _ (List.mem_append_left _ hm)
      · rcases List.mem_cons.1 hm with hm | hm
        · exact List.mem_append_left _ (by simp [hm])
        · exact List.mem_append_right _ (hfold.2.1 _ hm)
    · have hcc : c = cur := by simpa using hc
      subst hcc
      exact hfold.2.2 e (by rw [H.core.conn]; exact he)
  · intro hg
    rcases List.mem_append.1 hg with hg | hg
    · exact H.goal_open hg
    · have hgc : g = cur := by simpa using hg
      exact hne hgc.symm

theorem mainLoop_final {h0 : Heap α} {s g : Nat} (fuel : Nat) :
    ∀ (h : Heap α) (op cl : List Nat) (r : Heap α × List Nat × List Nat),
      LoopInv h0 s g h op cl → mainLoop g fuel h op cl = some r →
      Final h0 s g r.1 r.2.1 r.2.2 := by
  induction fuel with
  | zero =>
    intro h op cl r H hr
    cases op with
    | nil =>
      rw [mainLoop_nil] at hr
      cases hr
      refine ⟨H.core, ?_, Or.inl ⟨rfl, H.goal_open, ?_⟩⟩
      · rcases H.start_mem with hs | ⟨_, hop⟩
        · exact hs
        · cases hop
      · intro c hc e he
        simpa using H.expanded c hc e he
    | cons cur rest => simp [mainLoop] at hr
  | succ fuel ih =>
    intro h op cl r H hr
    cases op with
    | nil =>
      rw [mainLoop_nil] at hr
      cases hr
      refine ⟨H.core, ?_, Or.inl ⟨rfl, H.goal_open, ?_⟩⟩
      · rcases H.start_mem with hs | ⟨_, hop⟩
        · exact hs
        · cases hop
      · intro c hc e he
        simpa using H.expanded c hc e he
    | cons cur rest =>
      rw [mainLoop_succ] at hr
      by_cases hcg : cur = g
      · rw [if_pos hcg] at hr
        cases hr
        subst hcg
        exact ⟨H.core.pop, H.start_popped, Or.inr ⟨cl, rfl, H.goal_open⟩⟩
      · rw [if_neg hcg] at hr
        exact ih _ _ _ r (H.loop_step hcg) hr

theorem length_le_of_nodup_lt {l : List Nat} {n : Nat} (hnd : l.Nodup)
    (hlt : ∀ x ∈ l, x < n) : l.length ≤ n := by
  have hsub : l ⊆ List.range n := fun x hx => List.mem_range.2 (hlt x hx)
  have := (List.subperm_of_subset hnd hsub).length_le
  simpa using this

theorem mainLoop_terminates {h0 : Heap α} {s g n : Nat} (hf : FiniteGraph h0 n) (hs : s < n)
    (fuel : Nat) :
    ∀ (h : Heap α) (op cl : List Nat), LoopInv h0 s g h op cl → n ≤ cl.length + fuel →
      ∃ r, mainLoop g fuel h op cl = some r := by
  induction fuel with
  | zero =>
    intro h op cl H hn
    cases op with
    | nil => exact ⟨_, mainLoop_nil _ _ _ _⟩
    | cons cur rest =>
      exfalso
      have hlen := length_le_of_nodup_lt H.core.nodup
        (fun x hx => (H.core.reach x hx).lt hf hs)
      simp at hlen
      omega
  | succ fuel ih =>
    intro h op cl H hn
    cases op with
    | nil => exact ⟨_, mainLoop_nil _ _ _ _⟩
    | cons cur rest =>
      rw [mainLoop_succ]
      by_cases hcg : cur = g
      · rw [if_pos hcg]; exact ⟨_, rfl⟩
      · rw [if_neg hcg]
        apply ih _ _ _ (H.loop_step hcg)
        simp
        omega

theorem mem_of_walk_of_closed {h0 : Heap α} {cl : List Nat}
    (hcl : ∀ c ∈ cl, ∀ e ∈ (h0 c).connections, e.target ∈ cl) {es : List (Edge α)}
    {a b : Nat} (ha : a ∈ cl) (hw : IsWalk h0 a es b) : b ∈ cl := by
  induction es generalizing a with
  | nil =>
    have hab : a = b := hw
    exact hab ▸ ha
  | cons e es ih => exact ih (hcl a ha e hw.1) hw.2

theorem Final.goal_last {h0 h : Heap α} {s g : Nat} {op cl : List Nat}
    (H : Final h0 s g h op cl) (hr : Reachable h0 s g) : ∃ cl0, cl = cl0 ++ [g] ∧ g ∉ cl0 := by
  rcases H.exit with ⟨_, hg, hcl⟩ | hex
  · obtain ⟨es, hes⟩ := hr
    exact absurd (mem_of_walk_of_closed hcl H.start_mem hes) hg
  · exact hex

theorem Final.goal_untouched {h0 h : Heap α} {s g : Nat} {op cl : List Nat}
    (H : Final h0 s g h op cl) (hr : ¬ Reachable h0 s g) : h g = h0 g := by
  apply H.core.frame
  intro hg
  exact hr (H.core.reach g hg)


/-! ## The whole search -/

theorem startHeap_eq (h : Heap α) (s : Nat) :
    startHeap h s = Function.update h s ⟨0, none, (h s).connections⟩ :=
  setPrevious_setGScore h s 0 none

theorem startHeap_self (h : Heap α) (s : Nat) :
    startHeap h s s = ⟨0, none, (h s).connections⟩ := by
  simp [startHeap_eq]

theorem startHeap_other (h : Heap α) {s v : Nat} (hv : v ≠ s) : startHeap h s v = h v := by
  simp [startHeap_eq, Function.update_noteq hv]

theorem startHeap_connections (h : Heap α) (s v : Nat) :
    (startHeap h s v).connections = (h v).connections := by
  by_cases hv : v = s
  · subst hv; rw [startHeap_self]
  · rw [startHeap_other h hv]

theorem dijkstrasSearch_distinct (fuel : Nat) (h : Heap α) {s g : Nat} (hne : s ≠ g) :
    dijkstrasSearch fuel h (some s) (some g) =
      (mainLoop g fuel (startHeap h s) [s] []).bind fun r =>
        (buildPath r.1 fuel (some g) []).map fun p => (p, r.1) := by
  unfold dijkstrasSearch
  simp only [if_neg hne]
  change (match mainLoop g fuel (startHeap h s) [s] [] with
    | none => none
    | some (h2, _, _) =>
      match buildPath h2 fuel (some g) [] with
      | none => none
      | some path => some (path, h2)) = _
  cases mainLoop g fuel (startHeap h s) [s] [] with
  | none => rfl
  | some r =>
    obtain ⟨h2, op, cl⟩ := r
    simp only [Option.some_bind]
    cases buildPath h2 fuel (some g) [] <;> rfl

theorem search_loop {h : Heap α} {n s : Nat} (g : Nat) (hf : FiniteGraph h n) (hs : s < n)
    {fuel : Nat} (hfuel : n ≤ fuel) :
    ∃ h2 op cl, mainLoop g fuel (startHeap h s) [s] [] = some (h2, op, cl) ∧
      Final (startHeap h s) s g h2 op cl := by
  have hinv : LoopInv (startHeap h s) s g (startHeap h s) [s] [] :=
    LoopInv.loop_init _ s g (by rw [startHeap_self]) (by rw [startHeap_self])
  have hf1 : FiniteGraph (startHeap h s) n := by
    intro v hv e he
    rw [startHeap_connections] at he
    exact hf v hv e he
  obtain ⟨r, hr⟩ := mainLoop_terminates hf1 hs fuel _ _ _ hinv (by simpa using hfuel)
  obtain ⟨h2, op, cl⟩ := r
  exact ⟨h2, op, cl, hr, mainLoop_final fuel _ _ _ _ hinv hr⟩

theorem Final.closed_length_le {h0 h : Heap α} {s g n : Nat} {op cl : List Nat}
    (H : Final h0 s g h op cl) (hf : FiniteGraph h0 n) (hs : s < n) : cl.length ≤ n := by
  have hnd : cl.Nodup := (List.nodup_append.1 H.core.nodup).1
  exact length_le_of_nodup_lt hnd
    (fun x hx => (H.core.reach x (List.mem_append_left _ hx)).lt hf hs)

theorem search_reachable {h : Heap α} {n s g : Nat} (hf : FiniteGraph h n) (hs : s < n)
    (hne : s ≠ g) (hr : Reachable h s g) {fuel : Nat} (hfuel : n ≤ fuel) :
    ∃ p h2 op cl, dijkstrasSearch fuel h (some s) (some g) = some (p, h2) ∧
      mainLoop g fuel (startHeap h s) [s] [] = some (h2, op, cl) ∧
      Final (startHeap h s) s g h2 op cl ∧ BackWalk h2 (some g) p ∧ p.Sublist cl ∧
      p.head? = some s := by
  obtain ⟨h2, op, cl, hloop, hfin⟩ := search_loop g hf hs hfuel
  have hf1 : FiniteGraph (startHeap h s) n := by
    intro v hv e he
    rw [startHeap_connections] at he
    exact hf v hv e he
  have hr1 : Reachable (startHeap h s) s g := hr.reach_congr (startHeap_connections h s)
  obtain ⟨cl0, hcl, _⟩ := hfin.goal_last hr1
  obtain ⟨p, hp, hsub, hhead⟩ := hfin.core.path g (by simp [hcl])
  have hlen : p.length ≤ fuel :=
    (hsub.length_le.trans (hfin.closed_length_le hf1 hs)).trans hfuel
  refine ⟨p, h2, op, cl, ?_, hloop, hfin, hp, hsub, hhead⟩
  rw [dijkstrasSearch_distinct fuel h hne, hloop]
  simp only [Option.some_bind]
  rw [buildPath_of_backWalk hp fuel hlen []]
  simp

theorem search_unreachable {h : Heap α} {n s g : Nat} (hf : FiniteGraph h n) (hs : s < n)
    (hne : s ≠ g) (hr : ¬ Reachable h s g) (hprev : (h g).previous = none) {fuel : Nat}
    (hfuel : n ≤ fuel) :
    ∃ h2 op cl, dijkstrasSearch fuel h (some s) (some g) = some ([g], h2) ∧
      mainLoop g fuel (startHeap h s) [s] [] = some (h2, op, cl) ∧
      Final (startHeap h s) s g h2 op cl ∧ h2 g = h g := by
  obtain ⟨h2, op, cl, hloop, hfin⟩ := search_loop g hf hs hfuel
  have hr1 : ¬ Reachable (startHeap h s) s g := fun hr1 =>
    hr (hr1.reach_congr (fun v => (startHeap_connections h s v).symm))
  have hg : h2 g = h g := by
    rw [hfin.goal_untouched hr1, startHeap_other h (Ne.symm hne)]
  refine ⟨h2, op, cl, ?_, hloop, hfin, hg⟩
  rw [dijkstrasSearch_distinct fuel h hne, hloop]
  simp only [Option.some_bind]
  have hw : BackWalk h2 (some g) ([] ++ [g]) :=
    BackWalk.snoc (by rw [hg, hprev]; exact BackWalk.nil)
  rw [buildPath_of_backWalk hw fuel (by simp; omega) []]
  simp

theorem BackWalk.last_eq {h : Heap α} {o : Option Nat} {p : List Nat} (hw : BackWalk h o p) :
    ∀ x ∈ p.getLast?, o = some x := by
  cases hw with
  | nil => simp
  | snoc _ => simp

theorem BackWalk.chain {h : Heap α} {o : Option Nat} {p : List Nat} (hw : BackWalk h o p) :
    List.Chain' (fun a b => (h b).previous = some a) p := by
  induction hw with
  | nil => exact List.chain'_nil
  | snoc hw1 ih =>
    rename_i v p
    rw [List.chain'_append]
    refine ⟨ih, List.chain'_singleton v, ?_⟩
    intro x hx y hy
    have hyv : y = v := by simpa using hy.symm
    subst hyv
    exact hw1.last_eq x hx

theorem Core.path_edges {h0 h : Heap α} {s : Nat} {op cl : List Nat} (H : Core h0 s h op cl)
    {v : Nat} {p : List Nat} (hw : BackWalk h (some v) p) (hsub : p ⊆ cl) :
    List.Chain' (fun a b => ∃ e ∈ (h0 a).connections, e.target = b ∧
      (h b).gScore = (h a).gScore + e.cost) p := by
  have hch := List.Chain'.iff_mem.1 hw.chain
  refine hch.imp ?_
  rintro a b ⟨_, hb, hprev⟩
  have hbs : b ≠ s := by
    intro hbs
    rw [hbs, H.start_prev] at hprev
    cases hprev
  obtain ⟨c, _, hprev1, e, he, het, hg⟩ := H.pred b (List.mem_append_left _ (hsub hb)) hbs
  have hca : c = a := by
    rw [hprev1] at hprev
    exact Option.some.inj hprev
  subst hca
  exact ⟨e, he, het, hg⟩

theorem alongPath_of_chain {β : Type} [LinearOrderedAddCommGroup β]
    (h : Heap β) (l : List Nat) :
    ∀ a, List.Chain (CostEdge h) a l → ∃ es, AlongPath h a es l := by
  induction l with
  | nil => intro a _; exact ⟨[], trivial⟩
  | cons b rest ih =>
    intro a hch
    obtain ⟨hab, hrest⟩ := List.chain_cons.1 hch
    obtain ⟨e, he, het, hcost⟩ := hab
    obtain ⟨es, hes⟩ := ih b hrest
    exact ⟨e :: es, he, het, hcost, hes⟩

theorem AlongPath.walkCost_eq {β : Type} [LinearOrderedAddCommGroup β]
    {h : Heap β} (es : List (Edge β)) :
    ∀ (a : Nat) (l : List Nat) (b : Nat), AlongPath h a es l → (a :: l).getLast? = some b →
      walkCost es = (h b).gScore - (h a).gScore := by
  induction es with
  | nil =>
    intro a l b hp hl
    cases l with
    | nil =>
      have : a = b := by simpa using hl
      subst this
      simp [walkCost]
    | cons c rest => exact absurd hp (by simp [AlongPath])
  | cons e es ih =>
    intro a l b hp hl
    cases l with
    | nil => exact absurd hp (by simp [AlongPath])
    | cons c rest =>
      obtain ⟨_, _, hcost, hrest⟩ := hp
      have hl1 : (c :: rest).getLast? = some b := by
        rw [List.getLast?_cons_cons] at hl
        exact hl
      have := ih c rest b hrest hl1
      simp only [walkCost, List.map_cons, List.sum_cons] at this ⊢
      rw [this, hcost]
      abel

theorem AlongPath.isWalk {β : Type} [LinearOrderedAddCommGroup β]
    {h : Heap β} (es : List (Edge β)) :
    ∀ (a : Nat) (l : List Nat) (b : Nat), AlongPath h a es l → (a :: l).getLast? = some b →
      IsWalk h a es b := by
  induction es with
  | nil =>
    intro a l b hp hl
    cases l with
    | nil =>
      have : a = b := by simpa using hl
      exact this
    | cons c rest => exact absurd hp (by simp [AlongPath])
  | cons e es ih =>
    intro a l b hp hl
    cases l with
    | nil => exact absurd hp (by simp [AlongPath])
    | cons c rest =>
      obtain ⟨he, het, _, hrest⟩ := hp
      have hl1 : (c :: rest).getLast? = some b := by
        rw [List.getLast?_cons_cons] at hl
        exact hl
      exact ⟨he, by rw [het]; exact ih c rest b hrest hl1⟩


theorem mainLoop_mono {g : Nat} (fuel k : Nat) :
    ∀ (h : Heap α) (op cl : List Nat) (r : Heap α × List Nat × List Nat),
      mainLoop g fuel h op cl = some r → mainLoop g (fuel + k) h op cl = some r := by
  induction fuel with
  | zero =>
    intro h op cl r hr
    cases op with
    | nil => rw [mainLoop_nil] at hr ⊢; exact hr
    | cons cur rest => simp [mainLoop] at hr
  | succ fuel ih =>
    intro h op cl r hr
    cases op with
    | nil => rw [mainLoop_nil] at hr ⊢; exact hr
    | cons cur rest =>
      rw [show fuel + 1 + k = (fuel + k) + 1 by omega, mainLoop_succ]
      rw [mainLoop_succ] at hr
      by_cases hcg : cur = g
      · rw [if_pos hcg] at hr ⊢; exact hr
      · rw [if_neg hcg] at hr ⊢; exact ih _ _ _ r hr

theorem buildPath_mono {h : Heap α} (fuel k : Nat) :
    ∀ (o : Option Nat) (acc p : List Nat),
      buildPath h fuel o acc = some p → buildPath h (fuel + k) o acc = some p := by
  induction fuel with
  | zero =>
    intro o acc p hp
    cases o with
    | none => cases k <;> simpa [buildPath] using hp
    | some v => simp [buildPath] at hp
  | succ fuel ih =>
    intro o acc p hp
    cases o with
    | none => simpa [buildPath] using hp
    | some v =>
      rw [show fuel + 1 + k = (fuel + k) + 1 by omega]
      simp only [buildPath] at hp ⊢
      exact ih _ _ _ hp

theorem dijkstrasSearch_mono {fuel fuel1 : Nat} (hle : fuel ≤ fuel1) (h : Heap α)
    (s g : Option Nat) (r : List Nat × Heap α) (hr : dijkstrasSearch fuel h s g = some r) :
    dijkstrasSearch fuel1 h s g = some r := by
  obtain ⟨k, rfl⟩ := Nat.exists_eq_add_of_le hle
  cases s with
  | none => simpa [dijkstrasSearch] using hr
  | some s =>
    cases g with
    | none => simpa [dijkstrasSearch] using hr
    | some g =>
      by_cases hsg : s = g
      · simpa [dijkstrasSearch, hsg] using hr
      · rw [dijkstrasSearch_distinct _ _ hsg] at hr ⊢
        cases hloop : mainLoop g fuel (startHeap h s) [s] [] with
        | none => rw [hloop] at hr; simp at hr
        | some r1 =>
          rw [hloop] at hr
          rw [mainLoop_mono fuel k _ _ _ r1 hloop]
          simp only [Option.some_bind] at hr ⊢
          cases hpath : buildPath r1.1 fuel (some g) [] with
          | none => rw [hpath] at hr; simp at hr
          | some p =>
            rw [hpath] at hr
            rw [buildPath_mono fuel k _ _ p hpath]
            exact hr

/-- C1, at a failing input.  On `staleOrderGraph` (all costs non-negative, goal 2 reachable
from start 0) the search returns `[0, 2]` and leaves `gScore` 6 on the goal, the cost of the
only edge from 0 to 2, although the walk 0 -> 3 -> 1 -> 2 costs 3: node 1 was queued with
`gScore` 10 behind node 2, its improvement to 2 did not move it forward, and node 2 was closed
before it. -/
theorem optimality_fails_on_staleOrderGraph :
    (∀ v, ∀ e ∈ (staleOrderGraph v).connections, 0 ≤ e.cost) ∧
    resultPath (dijkstrasSearch 4 staleOrderGraph (some 0) (some 2)) = some [0, 2] ∧
    resultScores (dijkstrasSearch 4 staleOrderGraph (some 0) (some 2)) [0, 2] = some [0, 6] ∧
    IsWalk staleOrderGraph 0 [⟨3, 1⟩, ⟨1, 1⟩, ⟨2, 1⟩] 2 ∧
    walkCost ([⟨3, 1⟩, ⟨1, 1⟩, ⟨2, 1⟩] : List (Edge ℤ)) = 3 := by
  refine ⟨?_, by decide, by decide, ?_, by decide⟩
  · intro v e he
    match v with
    | 0 =>
      simp only [staleOrderGraph, freshNode, List.mem_cons, List.mem_singleton] at he
      rcases he with rfl | rfl | rfl | he <;> simp at *
    | 1 =>
      simp only [staleOrderGraph, freshNode, List.mem_cons, List.mem_singleton] at he
      rcases he with rfl | he <;> simp at *
    | 2 => simp [staleOrderGraph, freshNode] at he
    | 3 =>
      simp only [staleOrderGraph, freshNode, List.mem_cons, List.mem_singleton] at he
      rcases he with rfl | he <;> simp at *
    | k + 4 => simp [staleOrderGraph, freshNode] at he
  · exact ⟨by decide, by decide, by decide, rfl⟩


/-! ## Two runs on heaps that differ in untouched records -/

theorem insertOpen_congr (hA hB : Heap α) (t : Nat) (l : List Nat)
    (hl : ∀ v ∈ t :: l, (hA v).gScore = (hB v).gScore) :
    insertOpen hA t l = insertOpen hB t l := by
  induction l with
  | nil => rfl
  | cons i rest ih =>
    have ht := hl t (by simp)
    have hi := hl i (by simp)
    have hrest := ih (fun v hv => hl v (by
      rcases List.mem_cons.1 hv with hv | hv
      · simp [hv]
      · simp [hv]))
    simp only [insertOpen, ht, hi, hrest]

theorem writeNode_agree {hA hB : Heap α} {l : List Nat} (H : Agree hA hB l) (t c : Nat)
    (x : α) (l1 : List Nat) (hl1 : ∀ v ∈ l1, v = t ∨ v ∈ l) :
    Agree (writeNode hA t c x) (writeNode hB t c x) l1 := by
  have ht : writeNode hA t c x t = writeNode hB t c x t := by
    rw [writeNode_self, writeNode_self, H.1 t]
  refine ⟨fun v => ?_, fun v hv => ?_⟩
  · rw [writeNode_connections, writeNode_connections, H.1 v]
  · by_cases hvt : v = t
    · rw [hvt]; exact ht
    · rw [writeNode_other hA c x hvt, writeNode_other hB c x hvt]
      rcases hl1 v hv with h1 | h1
      · exact absurd h1 hvt
      · exact H.2 v h1

theorem relaxEdge_agree {hA hB : Heap α} {op cl : List Nat} (H : Agree hA hB (cl ++ op))
    {cur : Nat} (hcur : cur ∈ cl) (e : Edge α) :
    (relaxEdge cur cl (hA, op) e).2 = (relaxEdge cur cl (hB, op) e).2 ∧
      Agree (relaxEdge cur cl (hA, op) e).1 (relaxEdge cur cl (hB, op) e).1
        (cl ++ (relaxEdge cur cl (hA, op) e).2) := by
  have hc : hA cur = hB cur := H.2 cur (List.mem_append_left _ hcur)
  by_cases h1 : e.target ∈ cl
  · have eA : relaxEdge cur cl (hA, op) e = (hA, op) := by rw [relaxEdge_eq, if_pos h1]
    have eB : relaxEdge cur cl (hB, op) e = (hB, op) := by rw [relaxEdge_eq, if_pos h1]
    rw [eA, eB]
    exact ⟨rfl, H⟩
  · by_cases h2 : e.target ∈ op
    · have ht : hA e.target = hB e.target := H.2 e.target (List.mem_append_right _ h2)
      by_cases h3 : (hB cur).gScore + e.cost < (hB e.target).gScore
      · have eA : relaxEdge cur cl (hA, op) e
            = (writeNode hA e.target cur ((hB cur).gScore + e.cost), op) := by
          rw [relaxEdge_eq, if_neg h1, if_neg (not_not.2 h2), hc, ht, if_pos h3]
        have eB : relaxEdge cur cl (hB, op) e
            = (writeNode hB e.target cur ((hB cur).gScore + e.cost), op) := by
          rw [relaxEdge_eq, if_neg h1, if_neg (not_not.2 h2), if_pos h3]
        rw [eA, eB]
        exact ⟨rfl, writeNode_agree H _ _ _ _ (fun v hv => Or.inr hv)⟩
      · have eA : relaxEdge cur cl (hA, op) e = (hA, op) := by
          rw [relaxEdge_eq, if_neg h1, if_neg (not_not.2 h2), hc, ht, if_neg h3]
        have eB : relaxEdge cur cl (hB, op) e = (hB, op) := by
          rw [relaxEdge_eq, if_neg h1, if_neg (not_not.2 h2), if_neg h3]
        rw [eA, eB]
        exact ⟨rfl, H⟩
    · have hag : Agree (writeNode hA e.target cur ((hB cur).gScore + e.cost))
          (writeNode hB e.target cur ((hB cur).gScore + e.cost)) (e.target :: (cl ++ op)) :=
        writeNode_agree H _ _ _ _ (fun v hv => by simpa using hv)
      have hins := insertOpen_congr (writeNode hA e.target cur ((hB cur).gScore + e.cost))
        (writeNode hB e.target cur ((hB cur).gScore + e.cost)) e.target op
        (fun v hv => by
          rw [hag.2 v (by
            rcases List.mem_cons.1 hv with hv | hv
            · simp [hv]
            · simp [hv])])
      have eA : relaxEdge cur cl (hA, op) e
          = (writeNode hA e.target cur ((hB cur).gScore + e.cost),
            insertOpen (writeNode hA e.target cur ((hB cur).gScore + e.cost)) e.target op) := by
        rw [relaxEdge_eq, if_neg h1, if_pos h2, hc]
      have eB : relaxEdge cur cl (hB, op) e
          = (writeNode hB e.target cur ((hB cur).gScore + e.cost),
            insertOpen (writeNode hB e.target cur ((hB cur).gScore + e.cost)) e.target op) := by
        rw [relaxEdge_eq, if_neg h1, if_pos h2]
      rw [eA, eB]
      refine ⟨hins, hag.1, fun v hv => hag.2 v ?_⟩
      rcases List.mem_append.1 hv with hv | hv
      · simp [hv]
      · rcases (mem_insertOpen _ _ _ _).1 hv with hv | hv
        · simp [hv]
        · simp [hv]

theorem foldl_relaxEdge_agree {cur : Nat} {cl : List Nat} (hcur : cur ∈ cl)
    (es : List (Edge α)) (stA stB : Heap α × List Nat) (hop : stA.2 = stB.2)
    (H : Agree stA.1 stB.1 (cl ++ stA.2)) :
    (es.foldl (relaxEdge cur cl) stA).2 = (es.foldl (relaxEdge cur cl) stB).2 ∧
      Agree (es.foldl (relaxEdge cur cl) stA).1 (es.foldl (relaxEdge cur cl) stB).1
        (cl ++ (es.foldl (relaxEdge cur cl) stA).2) := by
  induction es generalizing stA stB with
  | nil => exact ⟨hop, H⟩
  | cons e es ih =>
    obtain ⟨hA, opA⟩ := stA
    obtain ⟨hB, opB⟩ := stB
    have hop1 : opA = opB := hop
    subst hop1
    have h1 := relaxEdge_agree H hcur e
    simp only [List.foldl_cons]
    exact ih _ _ h1.1 h1.2

theorem relaxEdges_agree {hA hB : Heap α} {op cl : List Nat} (H : Agree hA hB (cl ++ op))
    {cur : Nat} (hcur : cur ∈ cl) :
    (relaxEdges cur cl hA op).2 = (relaxEdges cur cl hB op).2 ∧
      Agree (relaxEdges cur cl hA op).1 (relaxEdges cur cl hB op).1
        (cl ++ (relaxEdges cur cl hA op).2) := by
  unfold relaxEdges
  rw [H.1 cur]
  exact foldl_relaxEdge_agree hcur _ (hA, op) (hB, op) rfl H

theorem mainLoop_agree {g : Nat} (fuel : Nat) :
    ∀ (hA hB : Heap α) (op cl : List Nat) (rA : Heap α × List Nat × List Nat),
      Agree hA hB (cl ++ op) → mainLoop g fuel hA op cl = some rA →
      ∃ hB2, mainLoop g fuel hB op cl = some (hB2, rA.2.1, rA.2.2) ∧
        Agree rA.1 hB2 (rA.2.2 ++ rA.2.1) := by
  induction fuel with
  | zero =>
    intro hA hB op cl rA H hr
    cases op with
    | nil =>
      rw [mainLoop_nil] at hr
      cases hr
      exact ⟨hB, mainLoop_nil _ _ _ _, H⟩
    | cons cur rest => simp [mainLoop] at hr
  | succ fuel ih =>
    intro hA hB op cl rA H hr
    cases op with
    | nil =>
      rw [mainLoop_nil] at hr
      cases hr
      exact ⟨hB, mainLoop_nil _ _ _ _, H⟩
    | cons cur rest =>
      rw [mainLoop_succ] at hr ⊢
      have H1 : Agree hA hB ((cl ++ [cur]) ++ rest) := by
        simpa using H
      by_cases hcg : cur = g
      · rw [if_pos hcg] at hr ⊢
        cases hr
        exact ⟨hB, rfl, H1⟩
      · rw [if_neg hcg] at hr ⊢
        have hstep := relaxEdges_agree H1 (show cur ∈ cl ++ [cur] by simp)
        rw [← hstep.1]
        exact ih _ _ _ _ rA hstep.2 hr

theorem startHeap_fixed {h : Heap α} {s : Nat} (hg : (h s).gScore = 0)
    (hp : (h s).previous = none) : startHeap h s = h := by
  rw [startHeap_eq]
  apply Function.update_eq_self_iff.2
  rw [← hg, ← hp]

theorem search_again (fuel : Nat) (h : Heap α) (s g : Option Nat) (p : List Nat)
    (h1 : Heap α) (hrun : dijkstrasSearch fuel h s g = some (p, h1)) :
    dijkstrasSearch fuel h1 s g = some (p, h1) := by
  cases s with
  | none =>
    have : ([], h) = (p, h1) := by simpa [dijkstrasSearch] using hrun
    cases this
    simp [dijkstrasSearch]
  | some s =>
    cases g with
    | none =>
      have : ([], h) = (p, h1) := by simpa [dijkstrasSearch] using hrun
      cases this
      simp [dijkstrasSearch]
    | some g =>
      by_cases hsg : s = g
      · have : ([s], h) = (p, h1) := by simpa [dijkstrasSearch, hsg] using hrun
        cases this
        simp [dijkstrasSearch, hsg]
      · rw [dijkstrasSearch_distinct _ _ hsg] at hrun ⊢
        cases hloop : mainLoop g fuel (startHeap h s) [s] [] with
        | none => rw [hloop] at hrun; simp at hrun
        | some r =>
          obtain ⟨h1a, op, cl⟩ := r
          rw [hloop] at hrun
          simp only [Option.some_bind] at hrun
          cases hpath : buildPath h1a fuel (some g) [] with
          | none => rw [hpath] at hrun; simp at hrun
          | some p1 =>
            rw [hpath] at hrun
            have hpp : (p1, h1a) = (p, h1) := by simpa using hrun
            cases hpp
            have hinv : LoopInv (startHeap h s) s g (startHeap h s) [s] [] :=
              LoopInv.loop_init _ s g (by rw [startHeap_self]) (by rw [startHeap_self])
            have hfin := mainLoop_final fuel _ _ _ _ hinv hloop
            have hfix : startHeap h1 s = h1 :=
              startHeap_fixed hfin.core.start_g hfin.core.start_prev
            have hag : Agree (startHeap h s) h1 ([] ++ [s]) := by
              refine ⟨fun v => (hfin.core.conn v).symm, fun v hv => ?_⟩
              have hvs : v = s := by simpa using hv
              subst hvs
              rw [← hfix, startHeap_self, startHeap_self, hfin.core.conn,
                startHeap_connections]
            obtain ⟨h2, hloop2, hag2⟩ := mainLoop_agree fuel _ _ _ _ _ hag hloop
            have hinv2 : LoopInv h1 s g h1 [s] [] :=
              LoopInv.loop_init _ s g hfin.core.start_g hfin.core.start_prev
            have hfin2 := mainLoop_final fuel _ _ _ _ hinv2 hloop2
            have h21 : h2 = h1 := by
              funext v
              by_cases hv : v ∈ cl ++ op
              · exact (hag2.2 v hv).symm
              · exact hfin2.core.frame v hv
            rw [hfix, hloop2, h21]
            simp only [Option.some_bind]
            rw [hpath]
            rfl

theorem search_returns {h : Heap α} {n : Nat} (hf : FiniteGraph h n)
    (hprev : ∀ v, (h v).previous = none) (s g : Option Nat) (hs : ∀ v, s = some v → v < n)
    {fuel : Nat} (hfuel : n ≤ fuel) : ∃ p h1, dijkstrasSearch fuel h s g = some (p, h1) := by
  cases s with
  | none => exact ⟨[], h, by simp [dijkstrasSearch]⟩
  | some s =>
    cases g with
    | none => exact ⟨[], h, by simp [dijkstrasSearch]⟩
    | some g =>
      by_cases hsg : s = g
      · exact ⟨[s], h, by simp [dijkstrasSearch, hsg]⟩
      · by_cases hr : Reachable h s g
        · obtain ⟨p, h2, _, _, hrun, _⟩ := search_reachable hf (hs s rfl) hsg hr hfuel
          exact ⟨p, h2, hrun⟩
        · obtain ⟨h2, _, _, hrun, _⟩ :=
            search_unreachable hf (hs s rfl) hsg hr (hprev g) hfuel
          exact ⟨[g], h2, hrun⟩

/-! ## The example graphs -/

theorem mainGraph_finite : FiniteGraph mainGraph 6 := by
  unfold FiniteGraph
  decide

theorem staleOrderGraph_finite : FiniteGraph staleOrderGraph 4 := by
  unfold FiniteGraph
  decide

theorem mainGraph_previous (v : Nat) : (mainGraph v).previous = none := by
  unfold mainGraph
  split <;> rfl

theorem mainGraph_unreachable_from_e : ¬ Reachable mainGraph 4 0 := by
  rintro ⟨es, hes⟩
  cases es with
  | nil =>
    have h40 : 4 = 0 := hes
    cases h40
  | cons e es =>
    have he : e ∈ (mainGraph 4).connections := hes.1
    simp [mainGraph, freshNode] at he

/-! ## The claims -/

/-- In arithmetic without rounding (an ordered group `β`), the path a search returns is
joined by edges each costing the difference of the `gScore`s of its two ends, and the costs
of these edges sum up to `g.gScore`. -/
theorem cost_consistency_exact {β : Type} [LinearOrderedAddCommGroup β]
    {h : Heap β} {n s g : Nat} (hf : FiniteGraph h n) (hs : s < n)
    (hne : s ≠ g) (hr : Reachable h s g) {fuel : Nat} (hfuel : n ≤ fuel) :
    ∃ p h2, dijkstrasSearch fuel h (some s) (some g) = some (p, h2) ∧
      (h2 s).gScore = 0 ∧ (∀ v, (h2 v).connections = (h v).connections) ∧
      List.Chain' (CostEdge h2) p ∧
      ∃ es, AlongPath h2 s es p.tail ∧ IsWalk h s es g ∧ walkCost es = (h2 g).gScore := by
  obtain ⟨p, h2, op, cl, hrun, _, hfin, hp, hsub, hhead⟩ :=
    search_reachable hf hs hne hr hfuel
  have hconn : ∀ v, (h2 v).connections = (h v).connections := fun v => by
    rw [hfin.core.conn, startHeap_connections]
  have hch : List.Chain' (CostEdge h2) p := by
    refine (hfin.core.path_edges hp hsub.subset).imp ?_
    rintro a b ⟨e, he, het, hg⟩
    refine ⟨e, by rw [hfin.core.conn]; exact he, het, ?_⟩
    rw [hg]; abel
  refine ⟨p, h2, hrun, hfin.core.start_g, hconn, hch, ?_⟩
  cases p with
  | nil => simp at hhead
  | cons a l =>
    have has : a = s := by simpa using hhead
    subst has
    obtain ⟨es, hes⟩ := alongPath_of_chain h2 l a hch
    refine ⟨es, hes, (hes.isWalk es a l g hp.getLast).walk_congr (fun v => (hconn v).symm), ?_⟩
    rw [hes.walkCost_eq es a l g hp.getLast, hfin.core.start_g, sub_zero]

theorem addAlong_of_chain (h : Heap α) (l : List Nat) :
    ∀ a, List.Chain (SumEdge h) a l → ∃ es, AddAlong h a es l := by
  induction l with
  | nil => intro a _; exact ⟨[], trivial⟩
  | cons b rest ih =>
    intro a hch
    obtain ⟨hab, hrest⟩ := List.chain_cons.1 hch
    obtain ⟨e, he, het, hsum⟩ := hab
    obtain ⟨es, hes⟩ := ih b hrest
    exact ⟨e :: es, he, het, hsum, hes⟩

theorem AddAlong.gScore_eq {h : Heap α} (es : List (Edge α)) :
    ∀ (a : Nat) (l : List Nat) (b : Nat), AddAlong h a es l → (a :: l).getLast? = some b →
      (h b).gScore = accumulate (h a).gScore es := by
  induction es with
  | nil =>
    intro a l b hp hl
    cases l with
    | nil =>
      have : a = b := by simpa using hl
      subst this
      rfl
    | cons c rest => exact absurd hp (by simp [AddAlong])
  | cons e es ih =>
    intro a l b hp hl
    cases l with
    | nil => exact absurd hp (by simp [AddAlong])
    | cons c rest =>
      obtain ⟨_, _, hsum, hrest⟩ := hp
      have hl1 : (c :: rest).getLast? = some b := by
        rw [List.getLast?_cons_cons] at hl
        exact hl
      rw [ih c rest b hrest hl1, hsum]
      rfl

theorem AddAlong.walk {h : Heap α} (es : List (Edge α)) :
    ∀ (a : Nat) (l : List Nat) (b : Nat), AddAlong h a es l → (a :: l).getLast? = some b →
      IsWalk h a es b := by
  induction es with
  | nil =>
    intro a l b hp hl
    cases l with
    | nil =>
      have : a = b := by simpa using hl
      exact this
    | cons c rest => exact absurd hp (by simp [AddAlong])
  | cons e es ih =>
    intro a l b hp hl
    cases l with
    | nil => exact absurd hp (by simp [AddAlong])
    | cons c rest =>
      obtain ⟨he, het, _, hrest⟩ := hp
      have hl1 : (c :: rest).getLast? = some b := by
        rw [List.getLast?_cons_cons] at hl
        exact hl
      exact ⟨he, by rw [het]; exact ih c rest b hrest hl1⟩

theorem floatGraph_finite : FiniteGraph floatGraph 3 := by
  unfold FiniteGraph
  decide

/-- C2 as stated fails in `float` arithmetic.  On `floatGraph` (non-negative costs, goal 2
reachable from start 0) the search returns `[0, 1, 2]` and leaves the `gScore`s 0,
16777216 and 16777220, the last being the rounded sum of 16777216 and 3.  The only edge
from 1 to 2 costs 3, the two `gScore`s differ by 4, and the costs of the edges of the path
add up to 16777219, not to the `gScore` of the goal. -/
theorem cost_difference_fails_in_float :
    (floatGraph 0).connections = [⟨1, ⟨16777216⟩⟩] ∧
    (floatGraph 1).connections = [⟨2, ⟨3⟩⟩] ∧
    resultPath (dijkstrasSearch 3 floatGraph (some 0) (some 2)) = some [0, 1, 2] ∧
    resultScores (dijkstrasSearch 3 floatGraph (some 0) (some 2)) [0, 1, 2]
      = some [⟨0⟩, ⟨16777216⟩, ⟨16777220⟩] ∧
    (16777220 : ℤ) - 16777216 ≠ 3 ∧
    (16777216 : ℤ) + 3 ≠ 16777220 := by
  refine ⟨rfl, rfl, by decide, by decide, by decide, by decide⟩

/-- C2 amended.  In a finite graph, with any addition of costs (the rounding one of `float`
included), for distinct `s` and `g` with `g` reachable from `s`, a run with enough fuel
returns a path `p` and leaves a heap in which `s.gScore = 0`, the connections are those of
the graph, every consecutive pair of `p` is joined by an edge such that the `gScore` of the
second node is the `gScore` of the first plus the cost of the edge, and `g.gScore` is what
adding the costs of these edges to 0, one after the other along the path, gives. -/
theorem cost_accumulated {h : Heap α} {n s g : Nat} (hf : FiniteGraph h n) (hs : s < n)
    (hne : s ≠ g) (hr : Reachable h s g) {fuel : Nat} (hfuel : n ≤ fuel) :
    ∃ p h2, dijkstrasSearch fuel h (some s) (some g) = some (p, h2) ∧
      (h2 s).gScore = 0 ∧ (∀ v, (h2 v).connections = (h v).connections) ∧
      List.Chain' (SumEdge h2) p ∧
      ∃ es, AddAlong h2 s es p.tail ∧ IsWalk h s es g ∧
        (h2 g).gScore = accumulate 0 es := by
  obtain ⟨p, h2, op, cl, hrun, _, hfin, hp, hsub, hhead⟩ :=
    search_reachable hf hs hne hr hfuel
  have hconn : ∀ v, (h2 v).connections = (h v).connections := fun v => by
    rw [hfin.core.conn, startHeap_connections]
  have hch : List.Chain' (SumEdge h2) p := by
    refine (hfin.core.path_edges hp hsub.subset).imp ?_
    rintro a b ⟨e, he, het, hg⟩
    exact ⟨e, by rw [hfin.core.conn]; exact he, het, hg⟩
  refine ⟨p, h2, hrun, hfin.core.start_g, hconn, hch, ?_⟩
  cases p with
  | nil => simp at hhead
  | cons a l =>
    have has : a = s := by simpa using hhead
    subst has
    obtain ⟨es, hes⟩ := addAlong_of_chain h2 l a hch
    refine ⟨es, hes, (hes.walk es a l g hp.getLast).walk_congr (fun v => (hconn v).symm), ?_⟩
    rw [hes.gScore_eq es a l g hp.getLast, hfin.core.start_g]

theorem cost_accumulated_witness :
    ∃ p h2, dijkstrasSearch 3 floatGraph (some 0) (some 2) = some (p, h2) ∧
      (h2 0).gScore = 0 ∧ (∀ v, (h2 v).connections = (floatGraph v).connections) ∧
      List.Chain' (SumEdge h2) p ∧
      ∃ es, AddAlong h2 0 es p.tail ∧ IsWalk floatGraph 0 es 2 ∧
        (h2 2).gScore = accumulate 0 es :=
  cost_accumulated floatGraph_finite (by decide) (by decide)
    ⟨[⟨1, ⟨16777216⟩⟩, ⟨2, ⟨3⟩⟩], by decide, by decide, rfl⟩ (le_refl 3)

/-- C3.  In a finite graph whose nodes all have `previous = none`, for any non-null start
and goal, a run with enough fuel returns a path in which every consecutive pair is joined
by an edge of the graph. -/
theorem path_contiguous {h : Heap α} {n s : Nat} (g : Nat) (hf : FiniteGraph h n)
    (hs : s < n) (hprev : ∀ v, (h v).previous = none) {fuel : Nat} (hfuel : n ≤ fuel) :
    ∃ p h2, dijkstrasSearch fuel h (some s) (some g) = some (p, h2) ∧
      List.Chain' (HasEdge h) p := by
  by_cases hne : s = g
  · subst hne
    exact ⟨[s], h, by simp [dijkstrasSearch], List.chain'_singleton s⟩
  · by_cases hr : Reachable h s g
    · obtain ⟨p, h2, _, _, hrun, _, hfin, hp, hsub, _⟩ :=
        search_reachable hf hs hne hr hfuel
      refine ⟨p, h2, hrun, (hfin.core.path_edges hp hsub.subset).imp ?_⟩
      rintro a b ⟨e, he, het, _⟩
      exact ⟨e, by rw [← startHeap_connections h s]; exact he, het⟩
    · obtain ⟨h2, _, _, hrun, _⟩ := search_unreachable hf hs hne hr (hprev g) hfuel
      exact ⟨[g], h2, hrun, List.chain'_singleton g⟩

theorem path_contiguous_witness :
    ∃ p h2, dijkstrasSearch 6 mainGraph (some 0) (some 4) = some (p, h2) ∧
      List.Chain' (HasEdge mainGraph) p :=
  path_contiguous 4 mainGraph_finite (by decide) mainGraph_previous (le_refl 6)

/-- C4.  In a finite graph with any `gScore` and `previous` values, for distinct `s` and `g`
with `g` reachable from `s`, a run with enough fuel returns a non-empty path whose first
element is `s` and whose last element is `g`. -/
theorem path_endpoints {h : Heap α} {n s g : Nat} (hf : FiniteGraph h n) (hs : s < n)
    (hne : s ≠ g) (hr : Reachable h s g) {fuel : Nat} (hfuel : n ≤ fuel) :
    ∃ p h2, dijkstrasSearch fuel h (some s) (some g) = some (p, h2) ∧
      p ≠ [] ∧ p.head? = some s ∧ p.getLast? = some g := by
  obtain ⟨p, h2, _, _, hrun, _, _, hp, _, hhead⟩ := search_reachable hf hs hne hr hfuel
  exact ⟨p, h2, hrun, hp.ne_nil, hhead, hp.getLast⟩

theorem path_endpoints_witness :
    ∃ p h2, dijkstrasSearch 4 staleOrderGraph (some 0) (some 2) = some (p, h2) ∧
      p ≠ [] ∧ p.head? = some 0 ∧ p.getLast? = some 2 :=
  path_endpoints staleOrderGraph_finite (by decide) (by decide)
    ⟨[⟨2, 6⟩], by decide, rfl⟩ (le_refl 4)

/-- C5.  On the graph built in `main`, the search from A to E given at least six units of
fuel returns `[A, B, C, D, E]` and leaves the `gScore`s 0, 2, 5, 6, 10 on these nodes; the
edges A->B->C->D->E cost 10 in total, less than the 11 of the walk A->F->E. -/
theorem reference_scenario (fuel : Nat) (hfuel : 6 ≤ fuel) :
    resultPath (dijkstrasSearch fuel mainGraph (some 0) (some 4)) = some [0, 1, 2, 3, 4] ∧
    resultScores (dijkstrasSearch fuel mainGraph (some 0) (some 4)) [0, 1, 2, 3, 4]
      = some [0, 2, 5, 6, 10] ∧
    IsWalk mainGraph 0 [⟨1, 2⟩, ⟨2, 3⟩, ⟨3, 1⟩, ⟨4, 4⟩] 4 ∧
    walkCost ([⟨1, 2⟩, ⟨2, 3⟩, ⟨3, 1⟩, ⟨4, 4⟩] : List (Edge ℤ)) = 10 ∧
    IsWalk mainGraph 0 [⟨5, 5⟩, ⟨4, 6⟩] 4 ∧
    walkCost ([⟨5, 5⟩, ⟨4, 6⟩] : List (Edge ℤ)) = 11 ∧
    walkCost ([⟨1, 2⟩, ⟨2, 3⟩, ⟨3, 1⟩, ⟨4, 4⟩] : List (Edge ℤ))
      < walkCost ([⟨5, 5⟩, ⟨4, 6⟩] : List (Edge ℤ)) := by
  have h5 : ∃ r, dijkstrasSearch 6 mainGraph (some 0) (some 4) = some r ∧
      r.1 = [0, 1, 2, 3, 4] ∧ [0, 1, 2, 3, 4].map (fun v => (r.2 v).gScore)
        = [0, 2, 5, 6, 10] := by
    cases hr : dijkstrasSearch 6 mainGraph (some 0) (some 4) with
    | none =>
      have hp : resultPath (dijkstrasSearch 6 mainGraph (some 0) (some 4))
          = some [0, 1, 2, 3, 4] := by decide
      rw [hr] at hp
      cases hp
    | some r =>
      have hp : resultPath (dijkstrasSearch 6 mainGraph (some 0) (some 4))
          = some [0, 1, 2, 3, 4] := by decide
      have hsc : resultScores (dijkstrasSearch 6 mainGraph (some 0) (some 4))
          [0, 1, 2, 3, 4] = some [0, 2, 5, 6, 10] := by decide
      rw [hr] at hp hsc
      exact ⟨r, rfl, Option.some.inj hp, Option.some.inj hsc⟩
  obtain ⟨r, hr, hp, hsc⟩ := h5
  rw [dijkstrasSearch_mono hfuel _ _ _ r hr]
  refine ⟨by simp [resultPath, hp], by simp only [resultScores, Option.map_some']; rw [hsc],
    ?_, by decide, ?_, by decide, by decide⟩
  · exact ⟨by decide, by decide, by decide, by decide, rfl⟩
  · exact ⟨by decide, by decide, rfl⟩

theorem reference_scenario_witness :
    resultPath (dijkstrasSearch 6 mainGraph (some 0) (some 4)) = some [0, 1, 2, 3, 4] ∧
    resultScores (dijkstrasSearch 6 mainGraph (some 0) (some 4)) [0, 1, 2, 3, 4]
      = some [0, 2, 5, 6, 10] ∧
    IsWalk mainGraph 0 [⟨1, 2⟩, ⟨2, 3⟩, ⟨3, 1⟩, ⟨4, 4⟩] 4 ∧
    walkCost ([⟨1, 2⟩, ⟨2, 3⟩, ⟨3, 1⟩, ⟨4, 4⟩] : List (Edge ℤ)) = 10 ∧
    IsWalk mainGraph 0 [⟨5, 5⟩, ⟨4, 6⟩] 4 ∧
    walkCost ([⟨5, 5⟩, ⟨4, 6⟩] : List (Edge ℤ)) = 11 ∧
    walkCost ([⟨1, 2⟩, ⟨2, 3⟩, ⟨3, 1⟩, ⟨4, 4⟩] : List (Edge ℤ))
      < walkCost ([⟨5, 5⟩, ⟨4, 6⟩] : List (Edge ℤ)) :=
  reference_scenario 6 (by decide)

/-- C6.  When the start pointer or the goal pointer is null, the search returns the empty
path, whatever the fuel, and hands back the heap it was given. -/
theorem absent_endpoint (fuel : Nat) (h : Heap α) :
    (∀ g, dijkstrasSearch fuel h none g = some ([], h)) ∧
    (∀ s, dijkstrasSearch fuel h s none = some ([], h)) := by
  constructor
  · intro g
    simp [dijkstrasSearch]
  · intro s
    cases s <;> simp [dijkstrasSearch]

/-- C7.  A search from a node to itself returns the one-element path holding that node,
whatever the node's edges, `gScore` and `previous`, and whatever the fuel. -/
theorem same_endpoint_path (fuel : Nat) (h : Heap α) (v : Nat) :
    resultPath (dijkstrasSearch fuel h (some v) (some v)) = some [v] := by
  simp [dijkstrasSearch, resultPath]

/-- C8 as stated fails: on `staleNode`, whose `gScore` is 7, the search from node 0 to
itself leaves the `gScore` at 7 and not at 0. -/
theorem same_endpoint_gScore_not_reset :
    resultScores (dijkstrasSearch 1 staleNode (some 0) (some 0)) [0] = some [7] ∧
    resultScores (dijkstrasSearch 1 staleNode (some 0) (some 0)) [0] ≠ some [0] := by
  constructor <;> decide

/-- C8 amended.  A search from a node to itself returns before lines 46-47 and leaves the
whole heap as it was: the node keeps the `gScore` and `previous` it had. -/
theorem same_endpoint_heap_unchanged (fuel : Nat) (h : Heap α) (v : Nat) :
    ∃ p, dijkstrasSearch fuel h (some v) (some v) = some (p, h) ∧
      resultScores (dijkstrasSearch fuel h (some v) (some v)) [v] = some [(h v).gScore] ∧
      resultPrevious (dijkstrasSearch fuel h (some v) (some v)) [v]
        = some [(h v).previous] := by
  refine ⟨[v], ?_, ?_, ?_⟩ <;> simp [dijkstrasSearch, resultScores, resultPrevious]

/-- C9.  In a finite graph, for distinct `s` and `g` with `g` not reachable from `s` and
`g.previous = none` before the run, a run with enough fuel returns exactly `[g]` and leaves
`g.gScore` and `g.previous` as they were. -/
theorem unreachable_goal_echo {h : Heap α} {n s g : Nat} (hf : FiniteGraph h n)
    (hs : s < n) (hne : s ≠ g) (hr : ¬ Reachable h s g) (hprev : (h g).previous = none)
    {fuel : Nat} (hfuel : n ≤ fuel) :
    ∃ h2, dijkstrasSearch fuel h (some s) (some g) = some ([g], h2) ∧
      (h2 g).gScore = (h g).gScore ∧ (h2 g).previous = (h g).previous := by
  obtain ⟨h2, _, _, hrun, _, _, hg⟩ := search_unreachable hf hs hne hr hprev hfuel
  exact ⟨h2, hrun, by rw [hg], by rw [hg]⟩

theorem unreachable_goal_echo_witness :
    ∃ h2, dijkstrasSearch 6 mainGraph (some 4) (some 0) = some ([0], h2) ∧
      (h2 0).gScore = (mainGraph 0).gScore ∧ (h2 0).previous = (mainGraph 0).previous :=
  unreachable_goal_echo mainGraph_finite (by decide) (by decide)
    mainGraph_unreachable_from_e rfl (le_refl 6)


/-- C10.  In a finite graph whose nodes all have `previous = none`, for any start and goal
(null or not), a run with enough fuel returns, and a second run on the heap the first one
left returns the same path and leaves that heap as it is: every node keeps the `gScore` and
`previous` the first run gave it. -/
theorem search_idempotent {h : Heap α} {n : Nat} (hf : FiniteGraph h n)
    (hprev : ∀ v, (h v).previous = none) (s g : Option Nat) (hs : ∀ v, s = some v → v < n)
    {fuel : Nat} (hfuel : n ≤ fuel) :
    ∃ p h1, dijkstrasSearch fuel h s g = some (p, h1) ∧
      dijkstrasSearch fuel h1 s g = some (p, h1) := by
  obtain ⟨p, h1, hrun⟩ := search_returns hf hprev s g hs hfuel
  exact ⟨p, h1, hrun, search_again fuel h s g p h1 hrun⟩

theorem search_idempotent_witness :
    ∃ p h1, dijkstrasSearch 6 mainGraph (some 0) (some 4) = some (p, h1) ∧
      dijkstrasSearch 6 h1 (some 0) (some 4) = some (p, h1) :=
  search_idempotent mainGraph_finite mainGraph_previous (some 0) (some 4)
    (fun v hv => by cases hv; decide) (le_refl 6)

/-! ## Frame, independence of stale records, simple paths -/

theorem dijkstrasSearch_some_distinct {fuel : Nat} {h : Heap α} {s g : Nat} (hne : s ≠ g)
    {p : List Nat} {h2 : Heap α} (hrun : dijkstrasSearch fuel h (some s) (some g) = some (p, h2)) :
    ∃ op cl, mainLoop g fuel (startHeap h s) [s] [] = some (h2, op, cl) ∧
      buildPath h2 fuel (some g) [] = some p ∧ Final (startHeap h s) s g h2 op cl := by
  rw [dijkstrasSearch_distinct _ _ hne] at hrun
  cases hloop : mainLoop g fuel (startHeap h s) [s] [] with
  | none => rw [hloop] at hrun; simp at hrun
  | some r =>
    obtain ⟨h1a, op, cl⟩ := r
    rw [hloop] at hrun
    simp only [Option.some_bind] at hrun
    cases hpath : buildPath h1a fuel (some g) [] with
    | none => rw [hpath] at hrun; simp at hrun
    | some p1 =>
      rw [hpath] at hrun
      have hpp : (p1, h1a) = (p, h2) := by simpa using hrun
      cases hpp
      have hinv : LoopInv (startHeap h s) s g (startHeap h s) [s] [] :=
        LoopInv.loop_init _ s g (by rw [startHeap_self]) (by rw [startHeap_self])
      exact ⟨op, cl, rfl, hpath, mainLoop_final fuel _ _ _ _ hinv hloop⟩

theorem Final.frame_of {h h2 : Heap α} {s g : Nat} {op cl : List Nat}
    (H : Final (startHeap h s) s g h2 op cl) : FrameOf h (some s) h2 := by
  refine ⟨fun v => by rw [H.core.conn, startHeap_connections], fun v hv => ?_⟩
  have hvs : v ≠ s := by
    intro hvs
    exact hv s rfl (hvs ▸ Reachable.refl h s)
  rw [← startHeap_other h hvs]
  apply H.core.frame
  intro hmem
  exact hv s rfl ((H.core.reach v hmem).reach_congr
    (fun w => (startHeap_connections h s w).symm))

theorem frameOf_refl (h : Heap α) (s : Option Nat) : FrameOf h s h :=
  ⟨fun _ => rfl, fun _ _ => rfl⟩

theorem frameOf_of_run {fuel : Nat} {h : Heap α} {s g : Option Nat} {p : List Nat}
    {h2 : Heap α} (hrun : dijkstrasSearch fuel h s g = some (p, h2)) : FrameOf h s h2 := by
  cases s with
  | none =>
    have : ([], h) = (p, h2) := by simpa [dijkstrasSearch] using hrun
    cases this
    exact frameOf_refl h _
  | some s =>
    cases g with
    | none =>
      have : ([], h) = (p, h2) := by simpa [dijkstrasSearch] using hrun
      cases this
      exact frameOf_refl h _
    | some g =>
      by_cases hsg : s = g
      · have : ([s], h) = (p, h2) := by simpa [dijkstrasSearch, hsg] using hrun
        cases this
        exact frameOf_refl h _
      · obtain ⟨op, cl, _, _, hfin⟩ := dijkstrasSearch_some_distinct hsg hrun
        exact hfin.frame_of

/-- C12.  Whenever a search returns, every node has the connections it had before and
every node that no walk from the start reaches has the record (`gScore`, `previous`) it had
before.  In a finite graph the main loop of a search between distinct nodes always ends, and
the heap it leaves has this frame.  On a finite graph whose nodes all have `previous = none`
the search does return, and the nodes not reached still have `previous = none`. -/
theorem search_frame {h : Heap α} {n : Nat} (hf : FiniteGraph h n) (s g : Option Nat)
    (hs : ∀ a, s = some a → a < n) {fuel : Nat} (hfuel : n ≤ fuel) :
    (∀ p h2, dijkstrasSearch fuel h s g = some (p, h2) → FrameOf h s h2) ∧
    (∀ a b, s = some a → a ≠ b → ∃ h2 op cl,
      mainLoop b fuel (startHeap h a) [a] [] = some (h2, op, cl) ∧ FrameOf h s h2) ∧
    ((∀ v, (h v).previous = none) → ∃ p h2, dijkstrasSearch fuel h s g = some (p, h2) ∧
      FrameOf h s h2 ∧ ∀ v, (∀ a, s = some a → ¬ Reachable h a v) →
        (h2 v).previous = none) := by
  refine ⟨fun p h2 hrun => frameOf_of_run hrun, ?_, ?_⟩
  · intro a b hsa _
    obtain ⟨h2, op, cl, hloop, hfin⟩ := search_loop b hf (hs a hsa) hfuel
    exact ⟨h2, op, cl, hloop, hsa ▸ hfin.frame_of⟩
  · intro hprev
    obtain ⟨p, h2, hrun⟩ := search_returns hf hprev s g hs hfuel
    have hfr := frameOf_of_run hrun
    refine ⟨p, h2, hrun, hfr, fun v hv => ?_⟩
    rw [hfr.2 v hv]
    exact hprev v

theorem search_frame_witness :
    (∀ p h2, dijkstrasSearch 6 mainGraph (some 3) (some 5) = some (p, h2) →
      FrameOf mainGraph (some 3) h2) ∧
    (∀ a b, some 3 = some a → a ≠ b → ∃ h2 op cl,
      mainLoop b 6 (startHeap mainGraph a) [a] [] = some (h2, op, cl) ∧
        FrameOf mainGraph (some 3) h2) ∧
    ((∀ v, (mainGraph v).previous = none) →
      ∃ p h2, dijkstrasSearch 6 mainGraph (some 3) (some 5) = some (p, h2) ∧
        FrameOf mainGraph (some 3) h2 ∧ ∀ v, (∀ a, some 3 = some a → ¬ Reachable mainGraph a v) →
          (h2 v).previous = none) :=
  search_frame mainGraph_finite (some 3) (some 5) (fun a ha => by cases ha; decide) (le_refl 6)

/-- C18.  Two heaps holding the same finite graph, with whatever `gScore` and `previous`
on its nodes: for distinct `s` and `g` with `g` reachable from `s`, the two runs (with enough
fuel) return the same path and leave the same `gScore` and `previous` on every node of it. -/
theorem stale_state_independent {hA hB : Heap α} {n s g : Nat}
    (hconn : ∀ v, (hA v).connections = (hB v).connections) (hf : FiniteGraph hA n)
    (hs : s < n) (hne : s ≠ g) (hr : Reachable hA s g) {fuel : Nat} (hfuel : n ≤ fuel) :
    ∃ p hA2 hB2, dijkstrasSearch fuel hA (some s) (some g) = some (p, hA2) ∧
      dijkstrasSearch fuel hB (some s) (some g) = some (p, hB2) ∧
      ∀ v ∈ p, (hA2 v).gScore = (hB2 v).gScore ∧ (hA2 v).previous = (hB2 v).previous := by
  obtain ⟨p, hA2, op, cl, hrunA, hloopA, hfin, hp, hsub, _⟩ :=
    search_reachable hf hs hne hr hfuel
  have hag : Agree (startHeap hA s) (startHeap hB s) ([] ++ [s]) := by
    refine ⟨fun v => by rw [startHeap_connections, startHeap_connections, hconn],
      fun v hv => ?_⟩
    have hvs : v = s := by simpa using hv
    subst hvs
    rw [startHeap_self, startHeap_self, hconn]
  obtain ⟨hB2, hloopB, hag2⟩ := mainLoop_agree fuel _ _ _ _ _ hag hloopA
  have hpB : ∀ x ∈ p, hB2 x = hA2 x := fun x hx =>
    (hag2.2 x (List.mem_append_left _ (hsub.subset hx))).symm
  have hwB : BackWalk hB2 (some g) p := hp.back_congr (fun x hx => by rw [hpB x hx])
  have hf1 : FiniteGraph (startHeap hA s) n := by
    intro v hv e he
    rw [startHeap_connections] at he
    exact hf v hv e he
  have hlen : p.length ≤ fuel :=
    (hsub.length_le.trans (hfin.closed_length_le hf1 hs)).trans hfuel
  refine ⟨p, hA2, hB2, hrunA, ?_, fun v hv => by rw [hpB v hv]; exact ⟨rfl, rfl⟩⟩
  rw [dijkstrasSearch_distinct fuel hB hne, hloopB]
  simp only [Option.some_bind]
  rw [buildPath_of_backWalk hwB fuel hlen []]
  simp

theorem stale_state_independent_witness :
    ∃ p hA2 hB2, dijkstrasSearch 4 staleOrderGraph (some 0) (some 2) = some (p, hA2) ∧
      dijkstrasSearch 4 staleOrderGraphUsed (some 0) (some 2) = some (p, hB2) ∧
      ∀ v ∈ p, (hA2 v).gScore = (hB2 v).gScore ∧ (hA2 v).previous = (hB2 v).previous :=
  @stale_state_independent ℤ _ _ _ _ staleOrderGraph staleOrderGraphUsed 4 0 2 (fun _ => rfl)
    staleOrderGraph_finite (by decide) (by decide) ⟨[⟨2, 6⟩], by decide, rfl⟩ 4 (le_refl 4)

/-- C19.  In a finite graph (cycles allowed), for distinct `s` and `g` with `g` reachable
from `s`, a run with enough fuel returns a path without repeated nodes, and the path is a
subsequence of the closed list the main loop leaves, which holds each node once, in the
order in which the nodes were moved to it. -/
theorem path_simple {h : Heap α} {n s g : Nat} (hf : FiniteGraph h n) (hs : s < n)
    (hne : s ≠ g) (hr : Reachable h s g) {fuel : Nat} (hfuel : n ≤ fuel) :
    ∃ p h2 op cl, dijkstrasSearch fuel h (some s) (some g) = some (p, h2) ∧
      mainLoop g fuel (startHeap h s) [s] [] = some (h2, op, cl) ∧
      p.Nodup ∧ cl.Nodup ∧ p.Sublist cl := by
  obtain ⟨p, h2, op, cl, hrun, hloop, hfin, _, hsub, _⟩ := search_reachable hf hs hne hr hfuel
  have hnd : cl.Nodup := (List.nodup_append.1 hfin.core.nodup).1
  exact ⟨p, h2, op, cl, hrun, hloop, hsub.nodup hnd, hnd, hsub⟩

theorem path_simple_witness :
    ∃ p h2 op cl, dijkstrasSearch 6 mainGraph (some 0) (some 4) = some (p, h2) ∧
      mainLoop 4 6 (startHeap mainGraph 0) [0] [] = some (h2, op, cl) ∧
      p.Nodup ∧ cl.Nodup ∧ p.Sublist cl :=
  path_simple mainGraph_finite (by decide) (by decide)
    ⟨[⟨5, 5⟩, ⟨4, 6⟩], by decide, by decide, rfl⟩ (le_refl 6)

/-! ## Counting iterations and edges -/

theorem relaxEdge_connections (cur : Nat) (cl : List Nat) (st : Heap α × List Nat)
    (e : Edge α) (v : Nat) :
    ((relaxEdge cur cl st e).1 v).connections = (st.1 v).connections := by
  obtain ⟨h, op⟩ := st
  rw [relaxEdge_eq]
  split
  · rfl
  · split
    · exact writeNode_connections _ _ _ _ _
    · split
      · exact writeNode_connections _ _ _ _ _
      · rfl

theorem foldl_relaxEdge_connections (cur : Nat) (cl : List Nat) (es : List (Edge α))
    (st : Heap α × List Nat) (v : Nat) :
    ((es.foldl (relaxEdge cur cl) st).1 v).connections = (st.1 v).connections := by
  induction es generalizing st with
  | nil => rfl
  | cons e es ih =>
    simp only [List.foldl_cons]
    rw [ih, relaxEdge_connections]

theorem relaxEdges_connections (cur : Nat) (cl : List Nat) (h : Heap α) (op : List Nat)
    (v : Nat) : ((relaxEdges cur cl h op).1 v).connections = (h v).connections :=
  foldl_relaxEdge_connections cur cl _ (h, op) v

theorem mainLoopCount_nil (g fuel : Nat) (h : Heap α) (cl : List Nat) :
    mainLoopCount g fuel h [] cl = some (0, 0) := by
  cases fuel <;> rfl

theorem mainLoopCount_succ (g fuel : Nat) (h : Heap α) (cur : Nat) (rest cl : List Nat) :
    mainLoopCount g (fuel + 1) h (cur :: rest) cl =
      if cur = g then some (1, 0)
      else (mainLoopCount g fuel (relaxEdges cur (cl ++ [cur]) h rest).1
        (relaxEdges cur (cl ++ [cur]) h rest).2 (cl ++ [cur])).map
          fun c => (c.1 + 1, c.2 + (h cur).connections.length) := rfl

theorem mainLoopCount_spec {g : Nat} (fuel : Nat) :
    ∀ (h : Heap α) (op cl : List Nat) (r : Heap α × List Nat × List Nat),
      mainLoop g fuel h op cl = some r →
      ∃ ex it ed, mainLoopCount g fuel h op cl = some (it, ed) ∧ r.2.2 = cl ++ ex ∧
        it = ex.length ∧ ed ≤ (ex.map fun v => (h v).connections.length).sum := by
  induction fuel with
  | zero =>
    intro h op cl r hr
    cases op with
    | nil =>
      rw [mainLoop_nil] at hr
      cases hr
      exact ⟨[], 0, 0, mainLoopCount_nil _ _ _ _, by simp, rfl, by simp⟩
    | cons cur rest => simp [mainLoop] at hr
  | succ fuel ih =>
    intro h op cl r hr
    cases op with
    | nil =>
      rw [mainLoop_nil] at hr
      cases hr
      exact ⟨[], 0, 0, mainLoopCount_nil _ _ _ _, by simp, rfl, by simp⟩
    | cons cur rest =>
      rw [mainLoop_succ] at hr
      rw [mainLoopCount_succ]
      by_cases hcg : cur = g
      · rw [if_pos hcg] at hr ⊢
        cases hr
        exact ⟨[cur], 1, 0, rfl, rfl, rfl, Nat.zero_le _⟩
      · rw [if_neg hcg] at hr ⊢
        obtain ⟨ex, it, ed, hcount, hcl, hit, hed⟩ := ih _ _ _ r hr
        refine ⟨cur :: ex, it + 1, ed + (h cur).connections.length, ?_, ?_, ?_, ?_⟩
        · rw [hcount]; rfl
        · rw [hcl]; simp
        · rw [hit]; rfl
        · have hsame : (ex.map fun v =>
              ((relaxEdges cur (cl ++ [cur]) h rest).1 v).connections.length)
              = ex.map fun v => (h v).connections.length := by
            apply List.map_congr_left
            intro v _
            rw [relaxEdges_connections]
          rw [hsame] at hed
          simp only [List.map_cons, List.sum_cons]
          omega

theorem sum_map_le_of_nodup_lt (f : Nat → Nat) {l : List Nat} {n : Nat} (hnd : l.Nodup)
    (hlt : ∀ x ∈ l, x < n) : (l.map f).sum ≤ ((List.range n).map f).sum := by
  have hsub : l ⊆ List.range n := fun x hx => List.mem_range.2 (hlt x hx)
  obtain ⟨l1, hperm, hsl⟩ := List.subperm_of_subset hnd hsub
  rw [← (hperm.map f).sum_eq]
  exact (hsl.map f).sum_le_sum (fun _ _ => Nat.zero_le _)

/-- C11.  In a finite graph with `n` nodes (any cycles, self-loops, duplicate edges and
costs), the main loop of a search from `s` ends within `n` units of fuel; the closed list it
leaves records every move to it and holds no node twice, the number of iterations is its
length and at most `n`, and the number of edges examined is at most the number of edges of
the graph. -/
theorem loop_bounds {h : Heap α} {n s : Nat} (g : Nat) (hf : FiniteGraph h n) (hs : s < n)
    {fuel : Nat} (hfuel : n ≤ fuel) :
    ∃ h2 op cl it ed, mainLoop g fuel (startHeap h s) [s] [] = some (h2, op, cl) ∧
      mainLoopCount g fuel (startHeap h s) [s] [] = some (it, ed) ∧
      cl.Nodup ∧ it = cl.length ∧ it ≤ n ∧
      ed ≤ ((List.range n).map fun v => (h v).connections.length).sum := by
  obtain ⟨h2, op, cl, hloop, hfin⟩ := search_loop g hf hs hfuel
  obtain ⟨ex, it, ed, hcount, hcl, hit, hed⟩ := mainLoopCount_spec fuel _ _ _ _ hloop
  have hex : cl = ex := by simpa using hcl
  subst hex
  have hf1 : FiniteGraph (startHeap h s) n := by
    intro v hv e he
    rw [startHeap_connections] at he
    exact hf v hv e he
  have hnd : cl.Nodup := (List.nodup_append.1 hfin.core.nodup).1
  have hlt : ∀ x ∈ cl, x < n := fun x hx =>
    (hfin.core.reach x (List.mem_append_left _ hx)).lt hf1 hs
  refine ⟨h2, op, cl, it, ed, hloop, hcount, hnd, hit, ?_, ?_⟩
  · rw [hit]; exact length_le_of_nodup_lt hnd hlt
  · have hsame : (cl.map fun v => (startHeap h s v).connections.length)
        = cl.map fun v => (h v).connections.length := by
      apply List.map_congr_left
      intro v _
      rw [startHeap_connections]
    rw [hsame] at hed
    exact hed.trans (sum_map_le_of_nodup_lt _ hnd hlt)

theorem loop_bounds_witness :
    ∃ h2 op cl it ed, mainLoop 4 6 (startHeap mainGraph 0) [0] [] = some (h2, op, cl) ∧
      mainLoopCount 4 6 (startHeap mainGraph 0) [0] [] = some (it, ed) ∧
      cl.Nodup ∧ it = cl.length ∧ it ≤ 6 ∧
      ed ≤ ((List.range 6).map fun v => (mainGraph v).connections.length).sum :=
  loop_bounds 4 mainGraph_finite (by decide) (le_refl 6)

/-! ## The states the main loop goes through -/

theorem loopPoints_nil (g fuel : Nat) (h : Heap α) (cl : List Nat) :
    loopPoints g fuel h [] cl = [(h, [], cl)] := by
  cases fuel <;> rfl

theorem loopPoints_succ (g fuel : Nat) (h : Heap α) (cur : Nat) (rest cl : List Nat) :
    loopPoints g (fuel + 1) h (cur :: rest) cl =
      (h, cur :: rest, cl) :: (h, rest, cl) :: (h, rest, cl ++ [cur]) ::
        (if cur = g then []
        else
          (relaxPoints cur (cl ++ [cur]) (h, rest) (h cur).connections).map
            (fun st => (st.1, st.2, cl ++ [cur])) ++
          loopPoints g fuel (relaxEdges cur (cl ++ [cur]) h rest).1
            (relaxEdges cur (cl ++ [cur]) h rest).2 (cl ++ [cur])) := rfl

theorem loopHeads_nil (g fuel : Nat) (h : Heap α) (cl : List Nat) :
    loopHeads g fuel h [] cl = [(h, [], cl)] := by
  cases fuel <;> rfl

theorem loopHeads_succ (g fuel : Nat) (h : Heap α) (cur : Nat) (rest cl : List Nat) :
    loopHeads g (fuel + 1) h (cur :: rest) cl =
      (h, cur :: rest, cl) ::
        (if cur = g then []
        else loopHeads g fuel (relaxEdges cur (cl ++ [cur]) h rest).1
          (relaxEdges cur (cl ++ [cur]) h rest).2 (cl ++ [cur])) := rfl

theorem loopPoints_ne_nil (g fuel : Nat) (h : Heap α) (op cl : List Nat) :
    loopPoints g fuel h op cl ≠ [] := by
  cases op with
  | nil => rw [loopPoints_nil]; simp
  | cons cur rest =>
    cases fuel with
    | zero => simp [loopPoints]
    | succ fuel => rw [loopPoints_succ]; simp

theorem loopPoints_getLast {g : Nat} (fuel : Nat) :
    ∀ (h : Heap α) (op cl : List Nat) (r : Heap α × List Nat × List Nat),
      mainLoop g fuel h op cl = some r → (loopPoints g fuel h op cl).getLast? = some r := by
  induction fuel with
  | zero =>
    intro h op cl r hr
    cases op with
    | nil =>
      rw [mainLoop_nil] at hr
      rw [loopPoints_nil]
      simpa using hr
    | cons cur rest => simp [mainLoop] at hr
  | succ fuel ih =>
    intro h op cl r hr
    cases op with
    | nil =>
      rw [mainLoop_nil] at hr
      rw [loopPoints_nil]
      simpa using hr
    | cons cur rest =>
      rw [mainLoop_succ] at hr
      rw [loopPoints_succ]
      by_cases hcg : cur = g
      · rw [if_pos hcg] at hr ⊢
        simpa using hr
      · rw [if_neg hcg] at hr ⊢
        have hrec := ih _ _ _ r hr
        have hne := loopPoints_ne_nil g fuel (relaxEdges cur (cl ++ [cur]) h rest).1
          (relaxEdges cur (cl ++ [cur]) h rest).2 (cl ++ [cur])
        rw [List.getLast?_cons_cons, List.getLast?_cons_cons, ← List.cons_append,
          List.getLast?_append_of_ne_nil _ hne]
        exact hrec

theorem loopHeads_sublist {g : Nat} (fuel : Nat) :
    ∀ (h : Heap α) (op cl : List Nat),
      (loopHeads g fuel h op cl).Sublist (loopPoints g fuel h op cl) := by
  induction fuel with
  | zero =>
    intro h op cl
    cases op with
    | nil => rw [loopHeads_nil, loopPoints_nil]
    | cons cur rest => exact List.Sublist.refl _
  | succ fuel ih =>
    intro h op cl
    cases op with
    | nil => rw [loopHeads_nil, loopPoints_nil]
    | cons cur rest =>
      rw [loopHeads_succ, loopPoints_succ]
      refine List.Sublist.cons₂ _ (List.Sublist.cons _ (List.Sublist.cons _ ?_))
      by_cases hcg : cur = g
      · rw [if_pos hcg, if_pos hcg]
      · rw [if_neg hcg, if_neg hcg]
        exact (ih _ _ _).trans (List.sublist_append_right _ _)

/-- C13, at a failing input.  On `staleOrderGraph` (all costs non-negative) the search from
0 to 2 starts its iterations with the open lists `[0]`, `[3, 2, 1]` and `[2, 1]`, holding
the `gScore`s `[0]`, `[1, 6, 10]` and `[6, 2]`: the third iteration starts with an open list
that is not sorted, and pops node 2 with `gScore` 6 while node 1 has `gScore` 2. -/
theorem open_list_unsorted_on_staleOrderGraph :
    (loopHeads 2 4 (startHeap staleOrderGraph 0) [0] []).map (fun st => st.2.1)
      = [[0], [3, 2, 1], [2, 1]] ∧
    (loopHeads 2 4 (startHeap staleOrderGraph 0) [0] []).map openScores
      = [[0], [1, 6, 10], [6, 2]] ∧
    ¬ List.Sorted (fun a b : ℤ => a ≤ b) [6, 2] := by
  refine ⟨by decide, by decide, by decide⟩

theorem relaxEdge_nodup (cur : Nat) {cl : List Nat} {st : Heap α × List Nat} (e : Edge α)
    (hnd : (cl ++ st.2).Nodup) : (cl ++ (relaxEdge cur cl st e).2).Nodup := by
  obtain ⟨h, op⟩ := st
  rw [relaxEdge_eq]
  by_cases h1 : e.target ∈ cl
  · rw [if_pos h1]; exact hnd
  · rw [if_neg h1]
    by_cases h2 : e.target ∈ op
    · rw [if_neg (not_not.2 h2)]
      split
      · exact hnd
      · exact hnd
    · rw [if_pos h2]
      have hperm : (cl ++ insertOpen (writeNode h e.target cur ((h cur).gScore + e.cost))
          e.target op).Perm (e.target :: (cl ++ op)) :=
        ((List.Perm.refl cl).append (insertOpen_perm _ _ _)).trans List.perm_middle
      refine hperm.nodup_iff.2 (List.nodup_cons.2 ⟨?_, hnd⟩)
      simp [h1, h2]

theorem relaxPoints_nodup (cur : Nat) {cl : List Nat} (es : List (Edge α)) :
    ∀ (st : Heap α × List Nat), (cl ++ st.2).Nodup →
      (∀ π ∈ relaxPoints cur cl st es, (cl ++ π.2).Nodup) ∧
        (cl ++ (es.foldl (relaxEdge cur cl) st).2).Nodup := by
  induction es with
  | nil => intro st hnd; exact ⟨by simp [relaxPoints], hnd⟩
  | cons e es ih =>
    intro st hnd
    have h1 := relaxEdge_nodup cur e hnd
    obtain ⟨h2, h3⟩ := ih _ h1
    refine ⟨?_, h3⟩
    intro π hπ
    simp only [relaxPoints, List.mem_cons] at hπ
    rcases hπ with hπ | hπ
    · rw [hπ]; exact h1
    · exact h2 π hπ

theorem loopPoints_nodup {g : Nat} (fuel : Nat) :
    ∀ (h : Heap α) (op cl : List Nat), (cl ++ op).Nodup →
      ∀ σ ∈ loopPoints g fuel h op cl, (σ.2.2 ++ σ.2.1).Nodup := by
  induction fuel with
  | zero =>
    intro h op cl hnd σ hσ
    cases op with
    | nil =>
      rw [loopPoints_nil] at hσ
      have : σ = (h, [], cl) := by simpa using hσ
      rw [this]; exact hnd
    | cons cur rest =>
      have : σ = (h, cur :: rest, cl) := by simpa [loopPoints] using hσ
      rw [this]; exact hnd
  | succ fuel ih =>
    intro h op cl hnd σ hσ
    cases op with
    | nil =>
      rw [loopPoints_nil] at hσ
      have : σ = (h, [], cl) := by simpa using hσ
      rw [this]; exact hnd
    | cons cur rest =>
      have hnd2 : (cl ++ rest).Nodup := by
        refine hnd.sublist ?_
        exact List.Sublist.append (List.Sublist.refl _) (List.sublist_cons_self _ _)
      have hnd3 : ((cl ++ [cur]) ++ rest).Nodup := by
        refine hnd.perm ?_
        simp only [List.append_assoc, List.singleton_append]
        exact List.Perm.refl _
      rw [loopPoints_succ] at hσ
      rcases List.mem_cons.1 hσ with hσ | hσ
      · rw [hσ]; exact hnd
      rcases List.mem_cons.1 hσ with hσ | hσ
      · rw [hσ]; exact hnd2
      rcases List.mem_cons.1 hσ with hσ | hσ
      · rw [hσ]; exact hnd3
      by_cases hcg : cur = g
      · rw [if_pos hcg] at hσ
        simp at hσ
      · rw [if_neg hcg] at hσ
        obtain ⟨hpts, hfold⟩ := relaxPoints_nodup cur (h cur).connections (h, rest) hnd3
        rcases List.mem_append.1 hσ with hσ | hσ
        · obtain ⟨π, hπ, rfl⟩ := List.mem_map.1 hσ
          exact hpts π hπ
        · exact ih _ _ _ hfold σ hσ

theorem tieGraph_point_mem :
    ((relaxEdges 0 [0] (startHeap tieGraph 0) []).1, [1, 2], [0]) ∈
      loopPoints 9 1 (startHeap tieGraph 0) [0] [] := by
  rw [show (1 : Nat) = 0 + 1 from rfl, loopPoints_succ, if_neg (by decide)]
  refine List.mem_cons_of_mem _ (List.mem_cons_of_mem _ (List.mem_cons_of_mem _
    (List.mem_append_left _ (List.mem_map.2
      ⟨relaxEdge 0 [0] (relaxEdge 0 [0] (startHeap tieGraph 0, []) ⟨1, 3⟩) ⟨2, 3⟩, ?_, ?_⟩))))
  · exact List.mem_cons_of_mem _ (List.mem_cons_self _ _)
  · rfl

/-- C15.  At every point of the main loop of a search from `s` (each evaluation of the loop
condition, after the `erase`, after the `push_back`, after each edge of the `for` loop), for
any number of iterations, the open list holds no node twice, the closed list holds no node
twice, and no node is in both. -/
theorem open_closed_disjoint (g fuel s : Nat) (h : Heap α) :
    ∀ σ ∈ loopPoints g fuel (startHeap h s) [s] [],
      σ.2.1.Nodup ∧ σ.2.2.Nodup ∧ List.Disjoint σ.2.1 σ.2.2 := by
  intro σ hσ
  have hnd := loopPoints_nodup fuel (startHeap h s) [s] [] (by simp) σ hσ
  obtain ⟨h1, h2, h3⟩ := List.nodup_append.1 hnd
  exact ⟨h2, h1, h3.symm⟩

theorem open_closed_disjoint_witness :
    ((relaxEdges 0 [0] (startHeap tieGraph 0) []).1, [1, 2], [0]) ∈
      loopPoints 9 1 (startHeap tieGraph 0) [0] [] ∧
    ([1, 2] : List Nat).Nodup ∧ ([0] : List Nat).Nodup ∧ List.Disjoint [1, 2] [0] :=
  ⟨tieGraph_point_mem, open_closed_disjoint 9 1 0 tieGraph _ tieGraph_point_mem⟩

theorem relaxEdge_closed_same (cur : Nat) {cl : List Nat} (st : Heap α × List Nat)
    (e : Edge α) {v : Nat} (hv : v ∈ cl) : (relaxEdge cur cl st e).1 v = st.1 v := by
  obtain ⟨h, op⟩ := st
  rw [relaxEdge_eq]
  by_cases h1 : e.target ∈ cl
  · rw [if_pos h1]
  · rw [if_neg h1]
    have hvt : v ≠ e.target := fun hvt => h1 (hvt ▸ hv)
    split
    · exact writeNode_other h _ _ hvt
    · split
      · exact writeNode_other h _ _ hvt
      · rfl

theorem relaxPoints_closed_same (cur : Nat) {cl : List Nat} (es : List (Edge α)) :
    ∀ (st : Heap α × List Nat),
      (∀ π ∈ relaxPoints cur cl st es, ∀ v ∈ cl, π.1 v = st.1 v) ∧
        ∀ v ∈ cl, (es.foldl (relaxEdge cur cl) st).1 v = st.1 v := by
  induction es with
  | nil => intro st; exact ⟨by simp [relaxPoints], fun _ _ => rfl⟩
  | cons e es ih =>
    intro st
    obtain ⟨h2, h3⟩ := ih (relaxEdge cur cl st e)
    refine ⟨?_, fun v hv => ?_⟩
    · intro π hπ v hv
      simp only [relaxPoints, List.mem_cons] at hπ
      rcases hπ with hπ | hπ
      · rw [hπ]; exact relaxEdge_closed_same cur st e hv
      · rw [h2 π hπ v hv]; exact relaxEdge_closed_same cur st e hv
    · simp only [List.foldl_cons]
      rw [h3 v hv]; exact relaxEdge_closed_same cur st e hv

theorem loopPoints_closed_same {g : Nat} (fuel : Nat) :
    ∀ (h : Heap α) (op cl : List Nat), ∀ τ ∈ loopPoints g fuel h op cl,
      ∀ v ∈ cl ++ op.head?.toList, τ.1 v = h v := by
  induction fuel with
  | zero =>
    intro h op cl τ hτ v _
    cases op with
    | nil =>
      rw [loopPoints_nil] at hτ
      have : τ = (h, [], cl) := by simpa using hτ
      rw [this]
    | cons cur rest =>
      have : τ = (h, cur :: rest, cl) := by simpa [loopPoints] using hτ
      rw [this]
  | succ fuel ih =>
    intro h op cl τ hτ v hv
    cases op with
    | nil =>
      rw [loopPoints_nil] at hτ
      have : τ = (h, [], cl) := by simpa using hτ
      rw [this]
    | cons cur rest =>
      have hv1 : v ∈ cl ++ [cur] := by simpa using hv
      rw [loopPoints_succ] at hτ
      rcases List.mem_cons.1 hτ with hτ | hτ
      · rw [hτ]
      rcases List.mem_cons.1 hτ with hτ | hτ
      · rw [hτ]
      rcases List.mem_cons.1 hτ with hτ | hτ
      · rw [hτ]
      by_cases hcg : cur = g
      · rw [if_pos hcg] at hτ
        simp at hτ
      · rw [if_neg hcg] at hτ
        obtain ⟨hpts, hfold⟩ :=
          @relaxPoints_closed_same α _ _ _ _ cur (cl ++ [cur]) (h cur).connections (h, rest)
        rcases List.mem_append.1 hτ with hτ | hτ
        · obtain ⟨π, hπ, rfl⟩ := List.mem_map.1 hτ
          exact hpts π hπ v hv1
        · rw [ih _ _ _ τ hτ v (List.mem_append_left _ hv1)]
          exact hfold v hv1

theorem loopPoints_pairwise {g : Nat} (fuel : Nat) :
    ∀ (h : Heap α) (op cl : List Nat),
      List.Pairwise KeepsClosed (loopPoints g fuel h op cl) := by
  induction fuel with
  | zero =>
    intro h op cl
    cases op with
    | nil => rw [loopPoints_nil]; exact List.pairwise_singleton _ _
    | cons cur rest => exact List.pairwise_singleton _ _
  | succ fuel ih =>
    intro h op cl
    cases op with
    | nil => rw [loopPoints_nil]; exact List.pairwise_singleton _ _
    | cons cur rest =>
      have hsame := @loopPoints_closed_same α _ _ _ _ g (fuel + 1) h (cur :: rest) cl
      have hsame1 : ∀ τ ∈ loopPoints g (fuel + 1) h (cur :: rest) cl,
          ∀ v ∈ cl ++ [cur], τ.1 v = h v := fun τ hτ v hv => hsame τ hτ v (by simpa using hv)
      rw [loopPoints_succ] at hsame1 ⊢
      by_cases hcg : cur = g
      · rw [if_pos hcg] at hsame1 ⊢
        apply List.pairwise_of_forall_mem_list
        intro a ha b hb v _
        have ha1 : a.1 = h := by
          simp only [List.mem_cons, List.mem_singleton, List.not_mem_nil, or_false] at ha
          rcases ha with rfl | rfl | rfl <;> rfl
        have hb1 : b.1 = h := by
          simp only [List.mem_cons, List.mem_singleton, List.not_mem_nil, or_false] at hb
          rcases hb with rfl | rfl | rfl <;> rfl
        rw [ha1, hb1]
      · rw [if_neg hcg] at hsame1 ⊢
        have hsplit : ∀ (M R : List (Heap α × List Nat × List Nat)),
            (h, cur :: rest, cl) :: (h, rest, cl) :: (h, rest, cl ++ [cur]) :: (M ++ R)
              = ((h, cur :: rest, cl) :: (h, rest, cl) :: (h, rest, cl ++ [cur]) :: M) ++ R := by
          intro M R; simp
        rw [hsplit] at hsame1 ⊢
        have hfront : ∀ a ∈ (h, cur :: rest, cl) :: (h, rest, cl) :: (h, rest, cl ++ [cur]) ::
            (relaxPoints cur (cl ++ [cur]) (h, rest) (h cur).connections).map
              (fun st => (st.1, st.2, cl ++ [cur])), a.2.2 ⊆ cl ++ [cur] := by
          intro a ha
          rcases List.mem_cons.1 ha with ha | ha
          · rw [ha]; exact List.subset_append_left _ _
          rcases List.mem_cons.1 ha with ha | ha
          · rw [ha]; exact List.subset_append_left _ _
          rcases List.mem_cons.1 ha with ha | ha
          · rw [ha]; exact List.Subset.refl _
          obtain ⟨π, _, rfl⟩ := List.mem_map.1 ha
          exact List.Subset.refl _
        have hkeep : ∀ a ∈ (h, cur :: rest, cl) :: (h, rest, cl) :: (h, rest, cl ++ [cur]) ::
            (relaxPoints cur (cl ++ [cur]) (h, rest) (h cur).connections).map
              (fun st => (st.1, st.2, cl ++ [cur])),
            ∀ b ∈ ((h, cur :: rest, cl) :: (h, rest, cl) :: (h, rest, cl ++ [cur]) ::
              (relaxPoints cur (cl ++ [cur]) (h, rest) (h cur).connections).map
                (fun st => (st.1, st.2, cl ++ [cur]))) ++
              loopPoints g fuel (relaxEdges cur (cl ++ [cur]) h rest).1
                (relaxEdges cur (cl ++ [cur]) h rest).2 (cl ++ [cur]), KeepsClosed a b := by
          intro a ha b hb v hv
          have hv1 := hfront a ha hv
          rw [hsame1 b hb v hv1, hsame1 a (List.mem_append_left _ ha) v hv1]
        refine List.pairwise_append.2 ⟨?_, ih _ _ _, ?_⟩
        · exact List.pairwise_of_forall_mem_list
            (fun a ha b hb => hkeep a ha b (List.mem_append_left _ hb))
        · intro a ha b hb
          exact hkeep a ha b (List.mem_append_right _ hb)

/-- C16.  Among the states the main loop of a search goes through (for any number of
iterations, any graph, self-loops and edges back to the start included), a later state
holds at every node of the closed list of an earlier state the record the earlier state
holds there: once a node is closed, its `gScore` and its `previous` are not written again. -/
theorem closed_never_rewritten (g fuel s : Nat) (h : Heap α) :
    List.Pairwise
      (fun σ τ : Heap α × List Nat × List Nat => ∀ v ∈ σ.2.2,
        (τ.1 v).gScore = (σ.1 v).gScore ∧ (τ.1 v).previous = (σ.1 v).previous)
      (loopPoints g fuel (startHeap h s) [s] []) := by
  refine (loopPoints_pairwise fuel (startHeap h s) [s] []).imp ?_
  intro σ τ hk v hv
  rw [hk v hv]
  exact ⟨rfl, rfl⟩

/-! ## Where a new node lands in the open list -/

theorem BackWalk.acc {h : Heap α} {o : Option Nat} {p : List Nat} (hw : BackWalk h o p) :
    ∀ c, o = some c → Acc (PrevRel h) c := by
  induction hw with
  | nil => intro c hc; cases hc
  | snoc _ ih =>
    rename_i v p _
    intro c hc
    cases hc
    exact Acc.intro v (fun y hy => ih y hy)

theorem not_transGen_self_of_acc {r : Nat → Nat → Prop} {a : Nat} (ha : Acc r a) :
    ¬ Relation.TransGen r a a := by
  have key : ∀ x, Acc (Relation.TransGen r) x → ¬ Relation.TransGen r x x := by
    intro x hx
    induction hx with
    | intro x _ ih => exact fun hxx => ih x hxx hxx
  exact key a ha.transGen

theorem Core.touched_acc {h0 h : Heap α} {s : Nat} {op cl : List Nat}
    (H : Core h0 s h op cl) : ∀ v ∈ cl ++ op, Acc (PrevRel h) v := by
  have hcl : ∀ v ∈ cl, Acc (PrevRel h) v := by
    intro v hv
    obtain ⟨p, hp, _, _⟩ := H.path v hv
    exact hp.acc v rfl
  intro v hv
  by_cases hvs : v = s
  · refine Acc.intro v (fun y hy => ?_)
    have hy1 : (h v).previous = some y := hy
    rw [hvs, H.start_prev] at hy1
    cases hy1
  · obtain ⟨c, hc, hprev, _⟩ := H.pred v hv hvs
    refine Acc.intro v (fun y hy => ?_)
    have hy1 : (h v).previous = some y := hy
    rw [hprev] at hy1
    cases hy1
    exact hcl c hc

theorem acyclic_of_acc_or_same {h h2 : Heap α}
    (hor : ∀ v, Acc (PrevRel h2) v ∨ h2 v = h v) (hac : Acyclic h) : Acyclic h2 := by
  have hstep : ∀ a b, PrevRel h2 a b → ¬ Acc (PrevRel h2) b →
      PrevRel h a b ∧ ¬ Acc (PrevRel h2) a := by
    intro a b hab hb
    have hsame : h2 b = h b := (hor b).resolve_left hb
    refine ⟨?_, fun ha => hb (Acc.intro b (fun y hy => ?_))⟩
    · unfold PrevRel at hab ⊢
      rw [← hsame]; exact hab
    · have hya : y = a := by
        have h1 : (h2 b).previous = some y := hy
        have h2' : (h2 b).previous = some a := hab
        rw [h1] at h2'
        exact Option.some.inj h2'
      rw [hya]; exact ha
  have hmove : ∀ a b, Relation.TransGen (PrevRel h2) a b → ¬ Acc (PrevRel h2) b →
      Relation.TransGen (PrevRel h) a b := by
    intro a b hab
    induction hab with
    | single hab => exact fun hb => Relation.TransGen.single (hstep _ _ hab hb).1
    | tail _ hcb ih =>
      intro hb
      obtain ⟨hcb1, hc⟩ := hstep _ _ hcb hb
      exact Relation.TransGen.tail (ih hc) hcb1
  intro v hv
  by_cases hacc : Acc (PrevRel h2) v
  · exact not_transGen_self_of_acc hacc hv
  · exact hac v (hmove v v hv hacc)

theorem Final.acyclic {h h2 : Heap α} {s g : Nat} {op cl : List Nat}
    (H : Final (startHeap h s) s g h2 op cl) (hac : Acyclic h) : Acyclic h2 := by
  refine acyclic_of_acc_or_same (fun v => ?_) hac
  by_cases hv : v ∈ cl ++ op
  · exact Or.inl (H.core.touched_acc v hv)
  · right
    have hvs : v ≠ s := fun hvs => hv (hvs ▸ List.mem_append_left _ H.start_mem)
    rw [H.core.frame v hv, startHeap_other h hvs]

theorem Final.previousIn {h h2 : Heap α} {s g n : Nat} {op cl : List Nat}
    (H : Final (startHeap h s) s g h2 op cl) (hf : FiniteGraph h n) (hs : s < n)
    (hp : PreviousIn h n) : PreviousIn h2 n := by
  have hf1 : FiniteGraph (startHeap h s) n := by
    intro v hv e he
    rw [startHeap_connections] at he
    exact hf v hv e he
  intro v hv c hc
  by_cases hvt : v ∈ cl ++ op
  · by_cases hvs : v = s
    · rw [hvs, H.core.start_prev] at hc
      cases hc
    · obtain ⟨c1, hc1, hprev, _⟩ := H.core.pred v hvt hvs
      have hcc : c1 = c := Option.some.inj (hprev.symm.trans hc)
      rw [← hcc]
      exact (H.core.reach c1 (List.mem_append_left _ hc1)).lt hf1 hs
  · have hvs : v ≠ s := fun hvs => hvt (hvs ▸ List.mem_append_left _ H.start_mem)
    rw [H.core.frame v hvt, startHeap_other h hvs] at hc
    exact hp v hv c hc

theorem backWalk_of_acyclic {h : Heap α} {n : Nat} (hac : Acyclic h) (hp : PreviousIn h n) :
    ∀ v, v < n → ∃ p, BackWalk h (some v) p ∧ p.Nodup ∧ (∀ a ∈ p, a < n) ∧
      ∀ a ∈ p, Relation.ReflTransGen (PrevRel h) a v := by
  let r : Fin n → Fin n → Prop := fun a b => Relation.TransGen (PrevRel h) a.1 b.1
  haveI : IsTrans (Fin n) r := ⟨fun _ _ _ hab hbc => Relation.TransGen.trans hab hbc⟩
  haveI : IsIrrefl (Fin n) r := ⟨fun a ha => hac a.1 ha⟩
  have hwf : WellFounded r := Finite.wellFounded_of_trans_of_irrefl r
  have hall : ∀ v : Fin n, ∃ p, BackWalk h (some v.1) p ∧ p.Nodup ∧ (∀ a ∈ p, a < n) ∧
      ∀ a ∈ p, Relation.ReflTransGen (PrevRel h) a v.1 := by
    intro v
    induction v using hwf.induction with
    | _ v ih =>
      cases hprev : (h v.1).previous with
      | none =>
        refine ⟨[] ++ [v.1], BackWalk.snoc (by rw [hprev]; exact BackWalk.nil), by simp, ?_, ?_⟩
        · intro a ha
          have : a = v.1 := by simpa using ha
          rw [this]; exact v.2
        · intro a ha
          have : a = v.1 := by simpa using ha
          rw [this]
      | some c =>
        have hcn : c < n := hp v.1 v.2 c hprev
        have hcv : PrevRel h c v.1 := hprev
        obtain ⟨p, hw, hnd, hlt, hreach⟩ := ih ⟨c, hcn⟩ (Relation.TransGen.single hcv)
        refine ⟨p ++ [v.1], BackWalk.snoc (by rw [hprev]; exact hw), ?_, ?_, ?_⟩
        · refine List.nodup_append.2 ⟨hnd, by simp, ?_⟩
          intro a ha hb
          have hav : a = v.1 := by simpa using hb
          rw [hav] at ha
          exact hac v.1 (Relation.TransGen.tail' (hreach v.1 ha) hcv)
        · intro a ha
          rcases List.mem_append.1 ha with ha | ha
          · exact hlt a ha
          · have : a = v.1 := by simpa using ha
            rw [this]; exact v.2
        · intro a ha
          rcases List.mem_append.1 ha with ha | ha
          · exact Relation.ReflTransGen.tail (hreach a ha) hcv
          · have : a = v.1 := by simpa using ha
            rw [this]
  intro v hv
  exact hall ⟨v, hv⟩

theorem acyclic_of_previous_none {h : Heap α} (hprev : ∀ v, (h v).previous = none) :
    Acyclic h := by
  intro v hv
  have hlast : ∃ c, PrevRel h c v := by
    cases hv with
    | single hcv => exact ⟨_, hcv⟩
    | tail _ hcv => exact ⟨_, hcv⟩
  obtain ⟨c, hc⟩ := hlast
  have hc1 : (h v).previous = some c := hc
  rw [hprev v] at hc1
  cases hc1

theorem previousIn_of_previous_none {h : Heap α} (hprev : ∀ v, (h v).previous = none)
    (n : Nat) : PreviousIn h n := by
  intro v _ c hc
  rw [hprev v] at hc
  cases hc

/-- C17.  In a finite graph with `n` nodes whose `previous` pointers stay inside the graph
and contain no cycle (a fresh graph, or one left by earlier searches), for any start and
goal of the graph (null or not), a run with enough fuel returns, the heap it leaves again
holds the same finite graph with `previous` pointers inside it and without a cycle, and the
returned path has at most `n` elements. -/
theorem acyclic_preserved {h : Heap α} {n : Nat} (hf : FiniteGraph h n)
    (hp : PreviousIn h n) (hac : Acyclic h) (s g : Option Nat)
    (hs : ∀ a, s = some a → a < n) (hg : ∀ b, g = some b → b < n) {fuel : Nat}
    (hfuel : n ≤ fuel) :
    ∃ p h2, dijkstrasSearch fuel h s g = some (p, h2) ∧
      Acyclic h2 ∧ PreviousIn h2 n ∧ FiniteGraph h2 n ∧ p.length ≤ n := by
  cases s with
  | none => exact ⟨[], h, by simp [dijkstrasSearch], hac, hp, hf, Nat.zero_le _⟩
  | some s =>
    cases g with
    | none => exact ⟨[], h, by simp [dijkstrasSearch], hac, hp, hf, Nat.zero_le _⟩
    | some g =>
      have hsn : s < n := hs s rfl
      by_cases hsg : s = g
      · exact ⟨[s], h, by simp [dijkstrasSearch, hsg], hac, hp, hf, by simp; omega⟩
      · obtain ⟨h2, op, cl, hloop, hfin⟩ := search_loop g hf hsn hfuel
        have hac2 : Acyclic h2 := hfin.acyclic hac
        have hp2 : PreviousIn h2 n := hfin.previousIn hf hsn hp
        have hf2 : FiniteGraph h2 n := by
          intro v hv e he
          rw [hfin.core.conn, startHeap_connections] at he
          exact hf v hv e he
        obtain ⟨p, hw, hnd, hlt, _⟩ := backWalk_of_acyclic hac2 hp2 g (hg g rfl)
        have hlen : p.length ≤ n := length_le_of_nodup_lt hnd hlt
        refine ⟨p, h2, ?_, hac2, hp2, hf2, hlen⟩
        rw [dijkstrasSearch_distinct fuel h hsg, hloop]
        simp only [Option.some_bind]
        rw [buildPath_of_backWalk hw fuel (hlen.trans hfuel) []]
        simp

theorem acyclic_preserved_witness :
    ∃ p h2, dijkstrasSearch 6 mainGraph (some 0) (some 4) = some (p, h2) ∧
      Acyclic h2 ∧ PreviousIn h2 6 ∧ FiniteGraph h2 6 ∧ p.length ≤ 6 :=
  acyclic_preserved mainGraph_finite (previousIn_of_previous_none mainGraph_previous 6)
    (acyclic_of_previous_none mainGraph_previous) (some 0) (some 4)
    (fun a ha => by cases ha; decide) (fun b hb => by cases hb; decide) (le_refl 6)

end Raygame
